import Mathlib

/-!
Shallow embedding of the code-typing-trainer core (typing engine,
segmenter, skip-range planner and comment lexer) together with proofs
about the embedded functions.

Strings are modelled as `List Char`; JavaScript numbers that hold
indices or counters are modelled as `Nat`/`Int` (with `Int` where the
code can produce negative intermediate values or uses `-1` sentinels),
and raw floating-point range endpoints supplied by callers are modelled
as `Rat` (floored and clamped exactly as the code does).  While-loops
are modelled as fuel-indexed recursions whose fuel provably dominates
the number of iterations of the source loop.
-/

/-- Mark enum from shared/types. -/
inductive Mark where
  | UNTOUCHED
  | CORRECT
  | INCORRECT
  | COLLATERAL
deriving DecidableEq, Repr

/-- A normalized text range (integer offsets). -/
structure TextRange where
  start : Nat
  «end» : Nat
deriving DecidableEq, Repr

/-- A raw caller-supplied range: endpoints are arbitrary numbers. -/
structure RawRange where
  start : Rat
  «end» : Rat
deriving DecidableEq, Repr

/-- `Math.max(0, Math.min(maxLen, Math.floor(x)))` on a raw endpoint. -/
def clampToLen (x : Rat) (maxLen : Nat) : Nat :=
  (max 0 (min (maxLen : Int) (Rat.floor x))).toNat

/-- The sort order used by `normalizeRanges`/`mergeRanges`:
`(a.start - b.start) || (a.end - b.end)` ascending. -/
def rangeLe (a b : TextRange) : Prop :=
  a.start < b.start ∨ (a.start = b.start ∧ a.«end» ≤ b.«end»)

instance : DecidableRel rangeLe := fun a b => by unfold rangeLe; infer_instance

instance : IsTotal TextRange rangeLe := ⟨by intro a b; unfold rangeLe; omega⟩

instance : IsTrans TextRange rangeLe := ⟨by intro a b c; unfold rangeLe; omega⟩

/-- The merge loop of `normalizeRanges`/`mergeRanges` (`current` is the
range being accumulated, the list is the remaining sorted input). -/
def mergeLoop (current : TextRange) : List TextRange → List TextRange
  | [] => [current]
  | next :: rest =>
    if next.start ≤ current.«end» then
      mergeLoop ⟨current.start, max current.«end» next.«end»⟩ rest
    else
      current :: mergeLoop next rest

/-- The tail of `normalizeRanges`/`mergeRanges` acting on the trimmed,
sorted list: return short lists as-is, otherwise run the merge loop. -/
def mergeSorted (trimmed : List TextRange) : List TextRange :=
  if trimmed.length ≤ 1 then trimmed
  else
    match trimmed with
    | [] => []
    | first :: rest => mergeLoop first rest

/-- `normalizeRanges` from metrics.ts: floor/clamp endpoints, drop empty
ranges, stable-sort by `(start, end)`, then merge overlapping/adjacent
ranges. -/
def normalizeRanges (ranges : List RawRange) (maxLen : Nat) : List TextRange :=
  if ranges = [] then []
  else
    mergeSorted (List.insertionSort rangeLe
      (((ranges.map fun r => TextRange.mk (clampToLen r.start maxLen) (clampToLen r.«end» maxLen)).filter
        fun r => decide (r.start < r.«end»))))

/-- `sumRangeLengths` from metrics.ts. -/
def sumRangeLengths (ranges : List TextRange) : Nat :=
  ranges.foldl (fun total r => total + (r.«end» - r.start)) 0

/-- The binary search of `findContainingRange`, with fuel dominating the
number of loop iterations (the interval shrinks every step). -/
def findAux (ranges : List TextRange) (pos : Nat) : Nat → Int → Int → Option TextRange
  | 0, _, _ => none
  | fuel + 1, lo, hi =>
    if lo ≤ hi then
      let mid := (lo + hi) / 2
      let r := ranges.getD mid.toNat ⟨0, 0⟩
      if pos < r.start then findAux ranges pos fuel lo (mid - 1)
      else if r.«end» ≤ pos then findAux ranges pos fuel (mid + 1) hi
      else some r
    else none

/-- `findContainingRange` from metrics.ts. -/
def findContainingRange (ranges : List TextRange) (pos : Nat) : Option TextRange :=
  findAux ranges pos (ranges.length + 1) 0 ((ranges.length : Int) - 1)

/-- The cursor-advancing while-loop of `skipForwardIfNeeded`; fuel
dominates the iteration count because the cursor strictly increases. -/
def skipForwardAux (ranges : List TextRange) (len : Nat) : Nat → Nat → Nat
  | 0, cursor => cursor
  | fuel + 1, cursor =>
    if cursor < len then
      match findContainingRange ranges cursor with
      | none => cursor
      | some r => skipForwardAux ranges len fuel r.«end»
    else cursor

/-- Result cursor of the `skipForwardIfNeeded` loop. -/
def skipForwardCursor (ranges : List TextRange) (len cursor : Nat) : Nat :=
  skipForwardAux ranges len (len - cursor) cursor

/-- `TypingEngineState` from metrics.ts. -/
structure TypingEngineState where
  text : List Char
  slackN : Nat
  autoSkipBlankLines : Bool
  allowWhitespaceAdvanceToNewline : Bool
  skipRanges : List TextRange
  cursor : Nat
  typedEnd : Nat
  errorActive : Bool
  firstErrorIndex : Int
  firstErrorTypedProgress : Int
  locked : Bool
  marks : List Mark
  countedCorrect : List Bool
  typedPositions : List Nat
  typeableChars : Int
  typedKeystrokes : Nat
  incorrect : Nat
  collateral : Nat
  backspaces : Nat
  correctChars : Int
deriving DecidableEq, Repr

/-- `skipForwardIfNeeded` from metrics.ts (mutates only the cursor). -/
def skipForwardIfNeeded (state : TypingEngineState) : TypingEngineState :=
  if state.skipRanges = [] then state
  else { state with cursor := skipForwardCursor state.skipRanges state.text.length state.cursor }

/-- `createTypingEngine` from metrics.ts. -/
def createTypingEngine (text : List Char) (slackN : Int) (autoSkipBlankLines : Bool)
    (skipRanges : List RawRange) (allowWhitespaceAdvanceToNewline : Bool) : TypingEngineState :=
  let slack := (max 0 slackN).toNat
  let ranges := normalizeRanges skipRanges text.length
  let skippedChars := sumRangeLengths ranges
  let state : TypingEngineState :=
    { text := text
      slackN := slack
      autoSkipBlankLines := autoSkipBlankLines
      allowWhitespaceAdvanceToNewline := allowWhitespaceAdvanceToNewline
      skipRanges := ranges
      cursor := 0
      typedEnd := 0
      errorActive := false
      firstErrorIndex := -1
      firstErrorTypedProgress := -1
      locked := false
      marks := List.replicate text.length Mark.UNTOUCHED
      countedCorrect := List.replicate text.length false
      typedPositions := []
      typeableChars := max 0 ((text.length : Int) - (skippedChars : Int))
      typedKeystrokes := 0
      incorrect := 0
      collateral := 0
      backspaces := 0
      correctChars := 0 }
  skipForwardIfNeeded state

/-- `isComplete` from metrics.ts. -/
def isComplete (state : TypingEngineState) : Bool :=
  decide (state.text.length ≤ state.cursor) && !state.errorActive && !state.locked

/-- `setMark` from metrics.ts. -/
def setMark (state : TypingEngineState) (index : Nat) (next : Mark) (countCorrect : Bool) : TypingEngineState :=
  if state.marks.length ≤ index then state
  else
    let prev := state.marks.getD index Mark.UNTOUCHED
    let prevCounted := state.countedCorrect.getD index false
    let prevWasCountedCorrect : Bool := (prev == Mark.CORRECT) && prevCounted
    let nextWillCountCorrect : Bool := (next == Mark.CORRECT) && countCorrect
    let cc1 := if prevWasCountedCorrect && !nextWillCountCorrect then state.correctChars - 1 else state.correctChars
    let cc2 := if !prevWasCountedCorrect && nextWillCountCorrect then cc1 + 1 else cc1
    { state with
        marks := state.marks.set index next
        countedCorrect := state.countedCorrect.set index nextWillCountCorrect
        correctChars := cc2 }

/-- The blank-line-consuming while-loop inside `handleKey` (fuel version:
the cursor advances by one every iteration). -/
def autoSkipNewlinesAux : Nat → TypingEngineState → TypingEngineState
  | 0, state => state
  | fuel + 1, state =>
    if state.cursor < state.text.length ∧ state.text.getD state.cursor '\u0000' = '\n' then
      let state := setMark state state.cursor Mark.CORRECT false
      autoSkipNewlinesAux fuel { state with cursor := state.cursor + 1 }
    else state

/-- Entry point of the blank-line-consuming walk. -/
def autoSkipNewlines (state : TypingEngineState) : TypingEngineState :=
  autoSkipNewlinesAux (state.text.length - state.cursor) state

/-- `handleKey` from metrics.ts. -/
def handleKey (state : TypingEngineState) (ch : List Char) : TypingEngineState :=
  if ch = [] then state
  else
    let state := { state with typedKeystrokes := state.typedKeystrokes + 1 }
    if state.locked then state
    else
      let state := skipForwardIfNeeded state
      if state.text.length ≤ state.cursor then state
      else
        let input := ch.headD '\u0000'
        let expected := state.text.getD state.cursor '\u0000'
        if !state.errorActive then
          let input := if state.allowWhitespaceAdvanceToNewline ∧ input = ' ' ∧ expected = '\n' then '\n' else input
          if input = expected then
            let isEnter : Bool := (input == '\n') && (expected == '\n')
            if isEnter && state.autoSkipBlankLines then
              let state := setMark state state.cursor Mark.CORRECT true
              let state := { state with
                typedPositions := state.typedPositions ++ [state.cursor]
                cursor := state.cursor + 1 }
              let state := { state with typedEnd := state.cursor }
              let state := autoSkipNewlines state
              let state := { state with typedEnd := state.cursor }
              skipForwardIfNeeded state
            else
              let state := setMark state state.cursor Mark.CORRECT true
              let state := { state with
                typedPositions := state.typedPositions ++ [state.cursor]
                cursor := state.cursor + 1 }
              let state := { state with typedEnd := state.cursor }
              skipForwardIfNeeded state
          else
            let typedProgressBefore := state.typedPositions.length
            let state := setMark state state.cursor Mark.INCORRECT false
            let state := { state with
              typedPositions := state.typedPositions ++ [state.cursor]
              incorrect := state.incorrect + 1
              errorActive := true
              firstErrorIndex := (state.cursor : Int)
              firstErrorTypedProgress := (typedProgressBefore : Int)
              cursor := state.cursor + 1 }
            let state := { state with typedEnd := state.cursor }
            skipForwardIfNeeded state
        else
          let typedDistance : Int :=
            if 0 ≤ state.firstErrorTypedProgress then
              (state.typedPositions.length : Int) - state.firstErrorTypedProgress
            else (state.cursor : Int) - state.firstErrorIndex
          if typedDistance ≤ (state.slackN : Int) then
            let state := setMark state state.cursor Mark.COLLATERAL false
            let state := { state with
              typedPositions := state.typedPositions ++ [state.cursor]
              collateral := state.collateral + 1
              cursor := state.cursor + 1 }
            let state := { state with typedEnd := state.cursor }
            skipForwardIfNeeded state
          else { state with locked := true }

/-- `handleBackspace` from metrics.ts. -/
def handleBackspace (state : TypingEngineState) : TypingEngineState :=
  let state := { state with
    typedKeystrokes := state.typedKeystrokes + 1
    backspaces := state.backspaces + 1
    locked := false }
  let state :=
    match state.typedPositions.getLast? with
    | some last =>
      let state := { state with typedPositions := state.typedPositions.dropLast, cursor := last }
      let state := { state with typedEnd := state.cursor }
      setMark state state.cursor Mark.UNTOUCHED false
    | none => state
  if state.errorActive ∧ (state.cursor : Int) ≤ state.firstErrorIndex then
    { state with errorActive := false, firstErrorIndex := -1, firstErrorTypedProgress := -1 }
  else state

/-- A user interaction step: a key press or a backspace. -/
inductive EngineStep where
  | key (ch : List Char)
  | backspace
deriving DecidableEq, Repr

/-- Apply one step to an engine state. -/
def applyStep (state : TypingEngineState) : EngineStep → TypingEngineState
  | EngineStep.key ch => handleKey state ch
  | EngineStep.backspace => handleBackspace state

/-- Run a finite sequence of steps. -/
def runSteps (state : TypingEngineState) : List EngineStep → TypingEngineState
  | [] => state
  | step :: rest => runSteps (applyStep state step) rest

/-- Positions currently bearing a user-typed mark: counted-correct, or
marked INCORRECT or COLLATERAL.  Auto-skipped positions are CORRECT but
uncounted, so they are excluded. -/
def isUserTypedMark (state : TypingEngineState) (i : Nat) : Bool :=
  state.countedCorrect.getD i false
  || state.marks.getD i Mark.UNTOUCHED == Mark.INCORRECT
  || state.marks.getD i Mark.UNTOUCHED == Mark.COLLATERAL

/-- Number of currently outstanding user-typed positions. -/
def userTypedCount (state : TypingEngineState) : Nat :=
  ((List.range state.text.length).filter (isUserTypedMark state)).length

/-- `k` rounds of (press the character expected at the cursor, then
backspace). -/
def keyBackspacePairs (state : TypingEngineState) : Nat → TypingEngineState
  | 0 => state
  | k + 1 => keyBackspacePairs (handleBackspace (handleKey state [state.text.getD state.cursor '\u0000'])) k

/-- Length of the maximal run of newline characters starting at `i`. -/
def newlineRunLen (text : List Char) (i : Nat) : Nat :=
  ((text.drop i).takeWhile (fun c => c == '\n')).length

/-- The CRLF-collapsing pass `replace(/\r\n/g, '\n')` (left-to-right,
non-overlapping). -/
def replaceCrLf : List Char → List Char
  | '\r' :: '\n' :: rest => '\n' :: replaceCrLf rest
  | c :: rest => c :: replaceCrLf rest
  | [] => []

/-- `normalizeText` from segmenter.ts: strip a leading BOM, collapse
CRLF and lone CR to LF, expand (or delete) tabs. -/
def normalizeText (input : List Char) (tabWidth : Int) : List Char :=
  let text := if input.head? = some '\uFEFF' then input.tail else input
  let text := (replaceCrLf text).map fun c => if c = '\r' then '\n' else c
  let width := (max 0 tabWidth).toNat
  if 0 < width then text.flatMap fun c => if c = '\t' then List.replicate width ' ' else [c]
  else text.flatMap fun c => if c = '\t' then [] else [c]

/-- `String.prototype.split('\n')` on a list of characters. -/
def splitOnNl : List Char → List (List Char)
  | [] => [[]]
  | c :: rest =>
    if c = '\n' then [] :: splitOnNl rest
    else
      match splitOnNl rest with
      | [] => [[c]]
      | h :: t => (c :: h) :: t

/-- `TextSegmentWithOffsets` from segmenter.ts. -/
structure TextSegmentWithOffsets where
  index : Nat
  startLine : Nat
  endLine : Nat
  text : List Char
  startOffset : Nat
  endOffset : Nat
deriving DecidableEq, Repr

/-- `String.prototype.slice(a, b)` (with `a ≤ b`) on a list of characters. -/
def sliceList (l : List Char) (a b : Nat) : List Char := (l.drop a).take (b - a)

/-- The `lineStartOffsets` array of the segmenter: offset of the start
of each line in the normalized text. -/
def lineStartOffsets (lines : List (List Char)) : List Nat :=
  (lines.scanl (fun offset line => offset + line.length + 1) 0).dropLast

/-- Mutable loop state of `splitNormalizedByLinesWithOffsets`. -/
structure SegState where
  segments : List TextSegmentWithOffsets
  index : Nat
  segmentStartLine : Nat
  currentLinesCount : Nat
  currentChars : Nat
deriving DecidableEq, Repr

/-- The `pushSegment` closure of the segmenter. -/
def pushSegment (normalized : List Char) (lines : List (List Char)) (offsets : List Nat)
    (st : SegState) (endLine : Nat) : SegState :=
  let startLineIndex := st.segmentStartLine - 1
  let endLineIndex := endLine - 1
  let startOffset := offsets.getD startLineIndex 0
  let endOffset := offsets.getD endLineIndex 0 + (lines.getD endLineIndex []).length
  { segments := st.segments ++
      [{ index := st.index
         startLine := st.segmentStartLine
         endLine := endLine
         text := sliceList normalized startOffset endOffset
         startOffset := startOffset
         endOffset := endOffset }]
    index := st.index + 1
    segmentStartLine := endLine + 1
    currentLinesCount := 0
    currentChars := 0 }

/-- The oversize-line slicing `for`-loop of the segmenter (fuel version;
`cap ≥ 1` at every call site, so the offset strictly increases). -/
def sliceLoop (line : List Char) (lineNumber lineStartOffset cap : Nat) :
    Nat → Nat → Nat → List TextSegmentWithOffsets
  | 0, _, _ => []
  | fuel + 1, idx, offset =>
    if offset < line.length then
      let slice := sliceList line offset (offset + cap)
      { index := idx
        startLine := lineNumber
        endLine := lineNumber
        text := slice
        startOffset := lineStartOffset + offset
        endOffset := lineStartOffset + offset + slice.length } ::
      sliceLoop line lineNumber lineStartOffset cap fuel (idx + 1) (offset + cap)
    else []

/-- One iteration of the segmenter's main loop over the line index. -/
def segLoopBody (normalized : List Char) (lines : List (List Char)) (offsets : List Nat)
    (per : Nat) (charLimit : Option Nat) (st : SegState) (lineIndex : Nat) : SegState :=
  let lineNumber := lineIndex + 1
  let line := lines.getD lineIndex []
  let lineChars := line.length
  let extraChars := if st.currentLinesCount = 0 then lineChars else 1 + lineChars
  let wouldExceedLines : Bool := decide (per ≤ st.currentLinesCount)
  let wouldExceedChars : Bool :=
    match charLimit with
    | some cap => decide (cap < st.currentChars + extraChars)
    | none => false
  let st := if 0 < st.currentLinesCount ∧ (wouldExceedLines || wouldExceedChars)
            then pushSegment normalized lines offsets st (lineNumber - 1) else st
  let continueLine := fun (st : SegState) =>
    let st := { st with
      currentLinesCount := st.currentLinesCount + 1
      currentChars := st.currentChars + extraChars }
    if per ≤ st.currentLinesCount then pushSegment normalized lines offsets st lineNumber else st
  match charLimit with
  | some cap =>
    if cap < lineChars then
      let st := if 0 < st.currentLinesCount then pushSegment normalized lines offsets st (lineNumber - 1) else st
      let lineStartOffset := offsets.getD lineIndex 0
      let slices := sliceLoop line lineNumber lineStartOffset cap line.length st.index 0
      { st with
          segments := st.segments ++ slices
          index := st.index + slices.length
          segmentStartLine := lineNumber + 1
          currentLinesCount := 0
          currentChars := 0 }
    else continueLine st
  | none => continueLine st

/-- `splitNormalizedByLinesWithOffsets` from segmenter.ts. -/
def splitNormalizedByLinesWithOffsets (normalized : List Char)
    (linesPerSegment maxSegmentChars : Int) : List TextSegmentWithOffsets :=
  let lines := splitOnNl normalized
  let per := (max 1 linesPerSegment).toNat
  let charLimit : Option Nat :=
    if 0 < maxSegmentChars then some (max 1 maxSegmentChars).toNat else none
  let offsets := lineStartOffsets lines
  let final := (List.range lines.length).foldl
    (segLoopBody normalized lines offsets per charLimit) ⟨[], 0, 1, 0, 0⟩
  if 0 < final.currentLinesCount then (pushSegment normalized lines offsets final lines.length).segments
  else final.segments

/-- `splitByLinesWithOffsets` from segmenter.ts. -/
def splitByLinesWithOffsets (input : List Char)
    (linesPerSegment tabWidth maxSegmentChars : Int) : List TextSegmentWithOffsets :=
  splitNormalizedByLinesWithOffsets (normalizeText input tabWidth) linesPerSegment maxSegmentChars

/-- `mergeRanges` from skipRanges.ts (same pipeline as `normalizeRanges`). -/
def mergeRanges (ranges : List RawRange) (maxLen : Nat) : List TextRange :=
  if ranges = [] then []
  else
    mergeSorted (List.insertionSort rangeLe
      (((ranges.map fun r => TextRange.mk (clampToLen r.start maxLen) (clampToLen r.«end» maxLen)).filter
        fun r => decide (r.start < r.«end»))))

/-- The inner `for (let i = r.start; i < r.end; ...) skipMask[i] = true`
loop (fuel = number of iterations). -/
def setTrueRangeAux : Nat → Nat → List Bool → List Bool
  | 0, _, mask => mask
  | k + 1, i, mask => setTrueRangeAux k (i + 1) (mask.set i true)

/-- Build the boolean skip mask used by `computeSkippableLineBreakRanges`. -/
def buildSkipMask (len : Nat) (ranges : List TextRange) : List Bool :=
  ranges.foldl (fun mask r => setTrueRangeAux (r.«end» - r.start) r.start mask) (List.replicate len false)

/-- The `hasPrintable` scan over `[lineStart, i)` (second argument is the
current index, third the number of remaining offsets). -/
def hasPrintableAux (mask : List Bool) : Nat → Nat → Bool
  | _, 0 => false
  | j, k + 1 => if !mask.getD j false then true else hasPrintableAux mask (j + 1) k

/-- `computeSkippableLineBreakRanges` from skipRanges.ts. -/
def computeSkippableLineBreakRanges (text : List Char) (skipRanges : List RawRange) : List TextRange :=
  if text = [] then []
  else
    let ranges := mergeRanges skipRanges text.length
    let skipMask := buildSkipMask text.length ranges
    let result := (List.range text.length).foldl
      (fun acc i =>
        if text.getD i '\u0000' = '\n' then
          let hasPrintable := hasPrintableAux skipMask acc.2 (i - acc.2)
          (if hasPrintable then acc.1 else acc.1 ++ [TextRange.mk i (i + 1)], i + 1)
        else acc)
      (([] : List TextRange), 0)
    result.1

/-- Lexer states of `parseCLikeCommentRanges`. -/
inductive CLikeState where
  | code | lineComment | blockComment | singleQuote | doubleQuote | template
deriving DecidableEq, Repr

/-- Lexer states of `parsePythonCommentRanges`. -/
inductive PyState where
  | code | lineComment | singleQuote | doubleQuote | tripleSingle | tripleDouble
deriving DecidableEq, Repr

/-- The backtick character (template-literal delimiter). -/
def templateQuote : Char := Char.ofNat 96

/-- `input.slice(at, at + needle.length) === needle`. -/
def startsWithAt (text : List Char) (needle : List Char) (i : Nat) : Bool :=
  sliceList text i (i + needle.length) == needle

/-- The three-apostrophe Python triple-quote delimiter. -/
def tripleSingleQuote : List Char := ['\'', '\'', '\'']

/-- The three-double-quote Python triple-quote delimiter. -/
def tripleDoubleQuote : List Char := ['"', '"', '"']

/-- End-of-input closing pushes of `parseCLikeCommentRanges`. -/
def cFinish (textLen : Nat) (state : CLikeState) (start : Int) (ranges : List TextRange) : List TextRange :=
  let ranges :=
    if state = CLikeState.lineComment ∧ 0 ≤ start then ranges ++ [TextRange.mk start.toNat textLen]
    else ranges
  if state = CLikeState.blockComment ∧ 0 ≤ start then ranges ++ [TextRange.mk start.toNat textLen]
  else ranges

/-- The scanning loop of `parseCLikeCommentRanges` (fuel version: the
index strictly increases each iteration). -/
def parseCLikeAux (text : List Char) : Nat → Nat → CLikeState → Bool → Int → List TextRange → List TextRange
  | 0, _, state, _, start, ranges => cFinish text.length state start ranges
  | fuel + 1, i, state, escaped, start, ranges =>
    if i < text.length then
      let ch := text.getD i '\u0000'
      let next := text.getD (i + 1) '\u0000'
      match state with
      | CLikeState.lineComment =>
        if ch = '\n' then
          parseCLikeAux text fuel (i + 1) CLikeState.code escaped (-1) (ranges ++ [TextRange.mk start.toNat i])
        else parseCLikeAux text fuel (i + 1) CLikeState.lineComment escaped start ranges
      | CLikeState.blockComment =>
        if ch = '*' ∧ next = '/' then
          parseCLikeAux text fuel (i + 2) CLikeState.code escaped (-1) (ranges ++ [TextRange.mk start.toNat (i + 2)])
        else parseCLikeAux text fuel (i + 1) CLikeState.blockComment escaped start ranges
      | CLikeState.singleQuote =>
        if escaped then parseCLikeAux text fuel (i + 1) CLikeState.singleQuote false start ranges
        else if ch = '\\' then parseCLikeAux text fuel (i + 1) CLikeState.singleQuote true start ranges
        else if ch = '\'' then parseCLikeAux text fuel (i + 1) CLikeState.code escaped start ranges
        else parseCLikeAux text fuel (i + 1) CLikeState.singleQuote escaped start ranges
      | CLikeState.doubleQuote =>
        if escaped then parseCLikeAux text fuel (i + 1) CLikeState.doubleQuote false start ranges
        else if ch = '\\' then parseCLikeAux text fuel (i + 1) CLikeState.doubleQuote true start ranges
        else if ch = '"' then parseCLikeAux text fuel (i + 1) CLikeState.code escaped start ranges
        else parseCLikeAux text fuel (i + 1) CLikeState.doubleQuote escaped start ranges
      | CLikeState.template =>
        if escaped then parseCLikeAux text fuel (i + 1) CLikeState.template false start ranges
        else if ch = '\\' then parseCLikeAux text fuel (i + 1) CLikeState.template true start ranges
        else if ch = templateQuote then parseCLikeAux text fuel (i + 1) CLikeState.code escaped start ranges
        else parseCLikeAux text fuel (i + 1) CLikeState.template escaped start ranges
      | CLikeState.code =>
        if ch = '/' ∧ next = '/' then parseCLikeAux text fuel (i + 2) CLikeState.lineComment escaped (i : Int) ranges
        else if ch = '/' ∧ next = '*' then parseCLikeAux text fuel (i + 2) CLikeState.blockComment escaped (i : Int) ranges
        else if ch = '\'' then parseCLikeAux text fuel (i + 1) CLikeState.singleQuote false start ranges
        else if ch = '"' then parseCLikeAux text fuel (i + 1) CLikeState.doubleQuote false start ranges
        else if ch = templateQuote then parseCLikeAux text fuel (i + 1) CLikeState.template false start ranges
        else parseCLikeAux text fuel (i + 1) CLikeState.code escaped start ranges
    else cFinish text.length state start ranges

/-- `parseCLikeCommentRanges` from commentRanges.ts. -/
def parseCLikeCommentRanges (text : List Char) : List TextRange :=
  parseCLikeAux text text.length 0 CLikeState.code false (-1) []

/-- End-of-input closing pushes of `parsePythonCommentRanges`. -/
def pyFinish (textLen : Nat) (state : PyState) (start : Int) (ranges : List TextRange) : List TextRange :=
  let ranges :=
    if state = PyState.lineComment ∧ 0 ≤ start then ranges ++ [TextRange.mk start.toNat textLen]
    else ranges
  if (state = PyState.tripleSingle ∨ state = PyState.tripleDouble) ∧ 0 ≤ start then
    ranges ++ [TextRange.mk start.toNat textLen]
  else ranges

/-- The scanning loop of `parsePythonCommentRanges` (fuel version: the
index strictly increases each iteration). -/
def parsePyAux (text : List Char) : Nat → Nat → PyState → Bool → Int → List TextRange → List TextRange
  | 0, _, state, _, start, ranges => pyFinish text.length state start ranges
  | fuel + 1, i, state, escaped, start, ranges =>
    if i < text.length then
      let ch := text.getD i '\u0000'
      match state with
      | PyState.lineComment =>
        if ch = '\n' then
          parsePyAux text fuel (i + 1) PyState.code escaped (-1) (ranges ++ [TextRange.mk start.toNat i])
        else parsePyAux text fuel (i + 1) PyState.lineComment escaped start ranges
      | PyState.tripleSingle =>
        if startsWithAt text tripleSingleQuote i then
          parsePyAux text fuel (i + 3) PyState.code escaped (-1) (ranges ++ [TextRange.mk start.toNat (i + 3)])
        else parsePyAux text fuel (i + 1) PyState.tripleSingle escaped start ranges
      | PyState.tripleDouble =>
        if startsWithAt text tripleDoubleQuote i then
          parsePyAux text fuel (i + 3) PyState.code escaped (-1) (ranges ++ [TextRange.mk start.toNat (i + 3)])
        else parsePyAux text fuel (i + 1) PyState.tripleDouble escaped start ranges
      | PyState.singleQuote =>
        if escaped then parsePyAux text fuel (i + 1) PyState.singleQuote false start ranges
        else if ch = '\\' then parsePyAux text fuel (i + 1) PyState.singleQuote true start ranges
        else if ch = '\'' then parsePyAux text fuel (i + 1) PyState.code escaped start ranges
        else parsePyAux text fuel (i + 1) PyState.singleQuote escaped start ranges
      | PyState.doubleQuote =>
        if escaped then parsePyAux text fuel (i + 1) PyState.doubleQuote false start ranges
        else if ch = '\\' then parsePyAux text fuel (i + 1) PyState.doubleQuote true start ranges
        else if ch = '"' then parsePyAux text fuel (i + 1) PyState.code escaped start ranges
        else parsePyAux text fuel (i + 1) PyState.doubleQuote escaped start ranges
      | PyState.code =>
        if startsWithAt text tripleSingleQuote i then
          parsePyAux text fuel (i + 3) PyState.tripleSingle escaped (i : Int) ranges
        else if startsWithAt text tripleDoubleQuote i then
          parsePyAux text fuel (i + 3) PyState.tripleDouble escaped (i : Int) ranges
        else if ch = '#' then parsePyAux text fuel (i + 1) PyState.lineComment escaped (i : Int) ranges
        else if ch = '\'' then parsePyAux text fuel (i + 1) PyState.singleQuote false start ranges
        else if ch = '"' then parsePyAux text fuel (i + 1) PyState.doubleQuote false start ranges
        else parsePyAux text fuel (i + 1) PyState.code escaped start ranges
    else pyFinish text.length state start ranges

/-- `parsePythonCommentRanges` from commentRanges.ts. -/
def parsePythonCommentRanges (text : List Char) : List TextRange :=
  parsePyAux text text.length 0 PyState.code false (-1) []

/-- The extension table for C-family comment lexing. -/
def C_LIKE_EXTS : List (List Char) :=
  (["c", "h", "cpp", "cc", "hpp", "java", "js", "ts", "tsx", "go", "rs",
    "cs", "kt", "swift", "php", "rb", "scala", "m", "mm"]).map String.toList

/-- `String.prototype.lastIndexOf(ch)` on a list of characters. -/
def lastIndexOfChar (l : List Char) (c : Char) : Int :=
  match l.reverse.findIdx? (fun x => x == c) with
  | some j => (l.length : Int) - 1 - (j : Int)
  | none => -1

/-- `getFileExtensionLower` from commentRanges.ts. -/
def getFileExtensionLower (fileName : List Char) : List Char :=
  let lower := fileName.map Char.toLower
  let dot := lastIndexOfChar lower '.'
  if 0 ≤ dot then lower.drop (dot.toNat + 1) else []

/-- Comment mode selected from the file extension. -/
inductive CommentMode where
  | cLike | python | nothing
deriving DecidableEq, Repr

/-- `detectCommentMode` from commentRanges.ts. -/
def detectCommentMode (fileName : List Char) : CommentMode :=
  let ext := getFileExtensionLower fileName
  if ext = "py".toList then CommentMode.python
  else if C_LIKE_EXTS.contains ext then CommentMode.cLike
  else CommentMode.nothing

/-- `parseCommentRangesForFile` from commentRanges.ts. -/
def parseCommentRangesForFile (text : List Char) (fileName : List Char) : List TextRange :=
  match detectCommentMode fileName with
  | CommentMode.nothing => []
  | CommentMode.python => parsePythonCommentRanges text
  | CommentMode.cLike => parseCLikeCommentRanges text

/-- Well-formedness of a stored skip-range list: each range is nonempty
and within the text bounds, and the list is sorted with gaps between
consecutive ranges. -/
def RangesWF (ranges : List TextRange) (len : Nat) : Prop :=
  (∀ r ∈ ranges, r.start < r.«end» ∧ r.«end» ≤ len)
  ∧ ranges.Pairwise (fun a b => a.«end» < b.start)

/-- Position `pos` lies in no half-open interval `[start, end)` of the
list. -/
def OutsideRanges (ranges : List TextRange) (pos : Nat) : Prop :=
  ∀ r ∈ ranges, pos < r.start ∨ r.«end» ≤ pos

/-- The core inductive invariant of the typing engine: everything except
the cursor-outside-skip-ranges property, which is re-established by
`skipForwardIfNeeded` at the end of each key-handling path. -/
structure EngineInvCore (s : TypingEngineState) : Prop where
  marks_len : s.marks.length = s.text.length
  counted_len : s.countedCorrect.length = s.text.length
  typedEnd_le_cursor : s.typedEnd ≤ s.cursor
  cursor_le_len : s.cursor ≤ s.text.length
  ranges_wf : RangesWF s.skipRanges s.text.length
  correct_eq : s.correctChars = (s.countedCorrect.count true : Int)
  counted_imp_correct : ∀ i : Nat, s.countedCorrect.getD i false = true →
    s.marks.getD i Mark.UNTOUCHED = Mark.CORRECT
  tp_sorted : s.typedPositions.Pairwise (fun a b => a < b)
  tp_lt_typedEnd : ∀ p ∈ s.typedPositions, p < s.typedEnd
  tp_out : ∀ p ∈ s.typedPositions, OutsideRanges s.skipRanges p
  tp_set : ∀ i : Nat, i ∈ s.typedPositions ↔ isUserTypedMark s i = true

/-- The full inductive invariant of the typing engine, preserved by
`handleKey` and `handleBackspace` and established by
`createTypingEngine`. -/
structure EngineInv (s : TypingEngineState) extends EngineInvCore s : Prop where
  cursor_out : OutsideRanges s.skipRanges s.cursor

/-! ## Concrete claim theorems -/

/-- C4: on text "abcdef" with slackN = 2, keys x b c d leave the engine
locked with cursor 3; a further key e only increments typedKeystrokes
(to 5) and changes nothing else; one backspace unlocks, moves the cursor
back to 2 with backspaces = 1 and marks[2] = UNTOUCHED. -/
theorem claim_C4 :
    (runSteps (createTypingEngine "abcdef".toList 2 true [] false)
        [EngineStep.key ['x'], EngineStep.key ['b'], EngineStep.key ['c'], EngineStep.key ['d']]).locked = true
    ∧ (runSteps (createTypingEngine "abcdef".toList 2 true [] false)
        [EngineStep.key ['x'], EngineStep.key ['b'], EngineStep.key ['c'], EngineStep.key ['d']]).cursor = 3
    ∧ (handleKey (runSteps (createTypingEngine "abcdef".toList 2 true [] false)
        [EngineStep.key ['x'], EngineStep.key ['b'], EngineStep.key ['c'], EngineStep.key ['d']]) ['e'])
      = { runSteps (createTypingEngine "abcdef".toList 2 true [] false)
            [EngineStep.key ['x'], EngineStep.key ['b'], EngineStep.key ['c'], EngineStep.key ['d']] with
          typedKeystrokes := 5 }
    ∧ (handleKey (runSteps (createTypingEngine "abcdef".toList 2 true [] false)
        [EngineStep.key ['x'], EngineStep.key ['b'], EngineStep.key ['c'], EngineStep.key ['d']]) ['e']).cursor = 3
    ∧ (handleBackspace (handleKey (runSteps (createTypingEngine "abcdef".toList 2 true [] false)
        [EngineStep.key ['x'], EngineStep.key ['b'], EngineStep.key ['c'], EngineStep.key ['d']]) ['e'])).locked = false
    ∧ (handleBackspace (handleKey (runSteps (createTypingEngine "abcdef".toList 2 true [] false)
        [EngineStep.key ['x'], EngineStep.key ['b'], EngineStep.key ['c'], EngineStep.key ['d']]) ['e'])).cursor = 2
    ∧ (handleBackspace (handleKey (runSteps (createTypingEngine "abcdef".toList 2 true [] false)
        [EngineStep.key ['x'], EngineStep.key ['b'], EngineStep.key ['c'], EngineStep.key ['d']]) ['e'])).backspaces = 1
    ∧ (handleBackspace (handleKey (runSteps (createTypingEngine "abcdef".toList 2 true [] false)
        [EngineStep.key ['x'], EngineStep.key ['b'], EngineStep.key ['c'], EngineStep.key ['d']]) ['e'])).marks[2]?
      = some Mark.UNTOUCHED := by
  decide

/-- C5: on text "a/*c*/b" with slackN = 1 and skip range [1,6), key x
produces an active error at 0 with the cursor jumped to 6 and no lock;
the following key b is collateral (count 1) with cursor 7 and still no
lock — the skipped comment interior does not consume slack. -/
theorem claim_C5 :
    (handleKey (createTypingEngine "a/*c*/b".toList 1 true [RawRange.mk 1 6] false) ['x']).errorActive = true
    ∧ (handleKey (createTypingEngine "a/*c*/b".toList 1 true [RawRange.mk 1 6] false) ['x']).firstErrorIndex = 0
    ∧ (handleKey (createTypingEngine "a/*c*/b".toList 1 true [RawRange.mk 1 6] false) ['x']).cursor = 6
    ∧ (handleKey (createTypingEngine "a/*c*/b".toList 1 true [RawRange.mk 1 6] false) ['x']).locked = false
    ∧ (handleKey (handleKey (createTypingEngine "a/*c*/b".toList 1 true [RawRange.mk 1 6] false) ['x']) ['b']).collateral = 1
    ∧ (handleKey (handleKey (createTypingEngine "a/*c*/b".toList 1 true [RawRange.mk 1 6] false) ['x']) ['b']).cursor = 7
    ∧ (handleKey (handleKey (createTypingEngine "a/*c*/b".toList 1 true [RawRange.mk 1 6] false) ['x']) ['b']).locked = false := by
  decide

/-- C7: in Python mode a '#' inside a single-quoted string does not
start a comment, and a line comment reaching end-of-input is closed at
the text length: the only comment range of
"s = '# not a comment'\n# yes" is [22, 27). -/
theorem claim_C7 :
    parseCommentRangesForFile "s = \x27# not a comment\x27\n# yes".toList "x.py".toList
      = [TextRange.mk 22 27] := by
  decide

/-- C8: for text "a\n//x\nb" with base skip range [2,5), exactly the
newline at offset 5 (ending the comment-only line) is skippable. -/
theorem claim_C8 :
    computeSkippableLineBreakRanges "a\n//x\nb".toList [RawRange.mk 2 5] = [TextRange.mk 5 6] := by
  decide

/-- C2 counterexample: on text "\n\nP" with autoSkipBlankLines, after a
single Enter the code sets typedEnd to the cursor position after the
auto-consumed newline run (2), not to the position just past the first
newline (1) as the claim states. -/
theorem claim_C2_counterexample :
    (handleKey (createTypingEngine "\n\nP".toList 3 true [] false) ['\n']).cursor = 2
    ∧ (handleKey (createTypingEngine "\n\nP".toList 3 true [] false) ['\n']).typedEnd = 2
    ∧ (handleKey (createTypingEngine "\n\nP".toList 3 true [] false) ['\n']).typedEnd ≠ 1 := by
  decide

/-- C3 counterexample: one matching key-then-backspace pair restores
cursor, typedEnd, marks and correctChars, but increments
typedKeystrokes by 2 (the backspace itself is also a counted
keystroke), not by 1 as the claim states. -/
theorem claim_C3_counterexample :
    (keyBackspacePairs (createTypingEngine "ab".toList 3 true [] false) 1).cursor
        = (createTypingEngine "ab".toList 3 true [] false).cursor
    ∧ (keyBackspacePairs (createTypingEngine "ab".toList 3 true [] false) 1).typedEnd
        = (createTypingEngine "ab".toList 3 true [] false).typedEnd
    ∧ (keyBackspacePairs (createTypingEngine "ab".toList 3 true [] false) 1).correctChars
        = (createTypingEngine "ab".toList 3 true [] false).correctChars
    ∧ (keyBackspacePairs (createTypingEngine "ab".toList 3 true [] false) 1).backspaces
        = (createTypingEngine "ab".toList 3 true [] false).backspaces + 1
    ∧ (keyBackspacePairs (createTypingEngine "ab".toList 3 true [] false) 1).typedKeystrokes
        ≠ (createTypingEngine "ab".toList 3 true [] false).typedKeystrokes + 1
    ∧ (keyBackspacePairs (createTypingEngine "ab".toList 3 true [] false) 1).typedKeystrokes
        = (createTypingEngine "ab".toList 3 true [] false).typedKeystrokes + 2 := by
  decide

/-- C9 counterexample: normalization is not idempotent: on the input
consisting of two byte-order marks, the first pass strips one BOM and
the second pass strips the other, so the two results differ. -/
theorem claim_C9_counterexample :
    normalizeText (normalizeText "\uFEFF\uFEFF".toList 4) 4 ≠ normalizeText "\uFEFF\uFEFF".toList 4 := by
  decide

/-! ## Range normalization lemmas -/

theorem clampToLen_le (x : Rat) (maxLen : Nat) : clampToLen x maxLen ≤ maxLen := by
  unfold clampToLen
  omega

theorem mergeLoop_start_ge :
    ∀ (l : List TextRange) (cur : TextRange),
      (cur :: l).Pairwise (fun a b => a.start ≤ b.start) →
      ∀ r ∈ mergeLoop cur l, cur.start ≤ r.start := by
  intro l
  induction l with
  | nil =>
    intro cur _ r hr
    simp only [mergeLoop, List.mem_singleton] at hr
    subst hr
    exact le_refl _
  | cons next rest ih =>
    intro cur hsort r hr
    rcases List.pairwise_cons.mp hsort with ⟨hcur, htail⟩
    simp only [mergeLoop] at hr
    split at hr
    · have hsort' : (TextRange.mk cur.start (max cur.«end» next.«end») :: rest).Pairwise
          (fun a b => a.start ≤ b.start) := by
        refine List.pairwise_cons.mpr ⟨?_, (List.pairwise_cons.mp htail).2⟩
        intro q hq
        exact hcur q (List.mem_cons_of_mem _ hq)
      exact ih _ hsort' r hr
    · rcases List.mem_cons.mp hr with h | h
      · subst h; exact le_refl _
      · have h3 : next.start ≤ r.start := ih next htail r h
        have h2 : cur.start ≤ next.start := hcur next (List.mem_cons_self _ _)
        omega

theorem mergeLoop_good (len : Nat) :
    ∀ (l : List TextRange) (cur : TextRange),
      cur.start < cur.«end» → cur.«end» ≤ len →
      (∀ r ∈ l, r.start < r.«end» ∧ r.«end» ≤ len) →
      ∀ r ∈ mergeLoop cur l, r.start < r.«end» ∧ r.«end» ≤ len := by
  intro l
  induction l with
  | nil =>
    intro cur h1 h2 _ r hr
    simp only [mergeLoop, List.mem_singleton] at hr
    subst hr; exact ⟨h1, h2⟩
  | cons next rest ih =>
    intro cur h1 h2 hl r hr
    have hnext := hl next (List.mem_cons_self _ _)
    have hrest : ∀ q ∈ rest, q.start < q.«end» ∧ q.«end» ≤ len :=
      fun q hq => hl q (List.mem_cons_of_mem _ hq)
    simp only [mergeLoop] at hr
    split at hr
    · exact ih ⟨cur.start, max cur.«end» next.«end»⟩ (by simp; omega) (by simp; omega) hrest r hr
    · rcases List.mem_cons.mp hr with h | h
      · subst h; exact ⟨h1, h2⟩
      · exact ih next hnext.1 hnext.2 hrest r h

theorem mergeLoop_pairwise :
    ∀ (l : List TextRange) (cur : TextRange),
      (cur :: l).Pairwise (fun a b => a.start ≤ b.start) →
      (mergeLoop cur l).Pairwise (fun a b => a.«end» < b.start) := by
  intro l
  induction l with
  | nil =>
    intro cur _
    simp [mergeLoop]
  | cons next rest ih =>
    intro cur hsort
    rcases List.pairwise_cons.mp hsort with ⟨hcur, htail⟩
    simp only [mergeLoop]
    split
    · have hsort' : (TextRange.mk cur.start (max cur.«end» next.«end») :: rest).Pairwise
          (fun a b => a.start ≤ b.start) := by
        refine List.pairwise_cons.mpr ⟨?_, (List.pairwise_cons.mp htail).2⟩
        intro q hq
        exact hcur q (List.mem_cons_of_mem _ hq)
      exact ih _ hsort'
    · refine List.pairwise_cons.mpr ⟨?_, ih next htail⟩
      intro q hq
      have hge : next.start ≤ q.start := mergeLoop_start_ge rest next htail q hq
      rename_i hif
      simp only [not_le] at hif
      omega

theorem rangesWF_nil (len : Nat) : RangesWF [] len := by
  constructor
  · intro r hr; cases hr
  · exact List.Pairwise.nil

theorem mergeSorted_wf (trimmed : List TextRange) (len : Nat)
    (hgood : ∀ r ∈ trimmed, r.start < r.«end» ∧ r.«end» ≤ len)
    (hstart : trimmed.Pairwise (fun a b => a.start ≤ b.start)) :
    RangesWF (mergeSorted trimmed) len := by
  unfold mergeSorted
  split
  · refine ⟨hgood, ?_⟩
    rename_i hlen
    rcases trimmed with _ | ⟨a, _ | ⟨b, t⟩⟩
    · exact List.Pairwise.nil
    · simp
    · simp at hlen
  · rcases trimmed with _ | ⟨first, rest⟩
    · exact rangesWF_nil len
    · exact ⟨mergeLoop_good len rest first
        (hgood first (List.mem_cons_self _ _)).1
        (hgood first (List.mem_cons_self _ _)).2
        (fun r hr => hgood r (List.mem_cons_of_mem _ hr)),
        mergeLoop_pairwise rest first hstart⟩

theorem trimmed_good (raw : List RawRange) (len : Nat) :
    ∀ r ∈ List.insertionSort rangeLe
      (((raw.map fun r => TextRange.mk (clampToLen r.start len) (clampToLen r.«end» len)).filter
        fun r => decide (r.start < r.«end»))),
      r.start < r.«end» ∧ r.«end» ≤ len := by
  intro r hr
  have hmem := (List.perm_insertionSort rangeLe _).mem_iff.mp hr
  rcases List.mem_filter.mp hmem with ⟨hmap, hlt⟩
  rcases List.mem_map.mp hmap with ⟨q, _, hq⟩
  refine ⟨by simpa using hlt, ?_⟩
  rw [← hq]
  exact clampToLen_le q.«end» len

theorem trimmed_sorted (l : List TextRange) :
    (List.insertionSort rangeLe l).Pairwise (fun a b => a.start ≤ b.start) := by
  refine (List.sorted_insertionSort rangeLe l).imp ?_
  intro a b hab
  unfold rangeLe at hab
  omega

theorem normalizeRanges_wf (raw : List RawRange) (len : Nat) :
    RangesWF (normalizeRanges raw len) len := by
  unfold normalizeRanges
  split
  · exact rangesWF_nil len
  · exact mergeSorted_wf _ len (trimmed_good raw len) (trimmed_sorted _)

theorem sumRangeLengths_aux (l : List TextRange) :
    ∀ a : Nat, l.foldl (fun total r => total + (r.«end» - r.start)) a
      = a + (l.map fun r => r.«end» - r.start).sum := by
  induction l with
  | nil => intro a; simp
  | cons r rest ih =>
    intro a
    simp only [List.foldl_cons, List.map_cons, List.sum_cons]
    rw [ih]
    omega

theorem sumRangeLengths_eq_sum (l : List TextRange) :
    sumRangeLengths l = (l.map fun r => r.«end» - r.start).sum := by
  unfold sumRangeLengths
  rw [sumRangeLengths_aux]
  omega

theorem sum_le_of_wf_aux (len : Nat) :
    ∀ (l : List TextRange) (lo : Nat),
      (∀ r ∈ l, r.start < r.«end» ∧ r.«end» ≤ len) →
      l.Pairwise (fun a b => a.«end» < b.start) →
      (∀ r ∈ l, lo ≤ r.start) →
      (l.map fun r => r.«end» - r.start).sum ≤ len - lo := by
  intro l
  induction l with
  | nil => intro lo _ _ _; simp
  | cons r rest ih =>
    intro lo hgood hpair hlo
    rcases List.pairwise_cons.mp hpair with ⟨hhead, htail⟩
    have hr := hgood r (List.mem_cons_self _ _)
    have hrec := ih r.«end» (fun q hq => hgood q (List.mem_cons_of_mem _ hq)) htail
      (fun q hq => le_of_lt (hhead q hq))
    have hlor := hlo r (List.mem_cons_self _ _)
    simp only [List.map_cons, List.sum_cons]
    omega

theorem sumRangeLengths_le (ranges : List TextRange) (len : Nat) (h : RangesWF ranges len) :
    sumRangeLengths ranges ≤ len := by
  rw [sumRangeLengths_eq_sum]
  have := sum_le_of_wf_aux len ranges 0 h.1 h.2 (fun _ _ => Nat.zero_le _)
  omega

/-! ## findContainingRange and skip-forward lemmas -/

theorem getD_eq_getElem_of_lt {α : Type} (l : List α) (d : α) (n : Nat) (h : n < l.length) :
    l.getD n d = l[n] := by
  rw [List.getD_eq_getElem?_getD, List.getElem?_eq_getElem h]
  rfl

theorem getD_eq_default_of_le {α : Type} (l : List α) (d : α) (n : Nat) (h : l.length ≤ n) :
    l.getD n d = d := by
  rw [List.getD_eq_getElem?_getD, List.getElem?_eq_none h]
  rfl

theorem findAux_some (ranges : List TextRange) (pos : Nat) :
    ∀ (fuel : Nat) (lo hi : Int) (r : TextRange),
      findAux ranges pos fuel lo hi = some r →
      r ∈ ranges ∧ r.start ≤ pos ∧ pos < r.«end» := by
  intro fuel
  induction fuel with
  | zero => intro lo hi r h; simp [findAux] at h
  | succ n ih =>
    intro lo hi r h
    simp only [findAux] at h
    split at h
    · split at h
      · exact ih _ _ r h
      · split at h
        · exact ih _ _ r h
        · rename_i hlt hge
          have hr := Option.some.inj h
          subst hr
          have hend : pos < (ranges.getD ((lo + hi) / 2).toNat ⟨0, 0⟩).«end» := by omega
          have hstart : (ranges.getD ((lo + hi) / 2).toNat ⟨0, 0⟩).start ≤ pos := by omega
          refine ⟨?_, hstart, hend⟩
          by_cases hb : ((lo + hi) / 2).toNat < ranges.length
          · rw [getD_eq_getElem_of_lt _ _ _ hb]
            exact List.getElem_mem hb
          · rw [getD_eq_default_of_le _ _ _ (le_of_not_lt hb)] at hend
            simp at hend
    · simp at h

theorem findContainingRange_some (ranges : List TextRange) (pos : Nat) (r : TextRange)
    (h : findContainingRange ranges pos = some r) :
    r ∈ ranges ∧ r.start ≤ pos ∧ pos < r.«end» :=
  findAux_some ranges pos _ _ _ r h

theorem wf_start_lt (ranges : List TextRange) (len : Nat) (h : RangesWF ranges len) :
    ∀ (i j : Nat), (hi : i < ranges.length) → (hj : j < ranges.length) → i < j →
      ranges[i].«end» < ranges[j].start := by
  intro i j hi hj hij
  exact List.pairwise_iff_getElem.mp h.2 i j hi hj hij

theorem findAux_none (ranges : List TextRange) (len pos : Nat) (hwf : RangesWF ranges len) :
    ∀ (fuel : Nat) (lo hi : Int),
      0 ≤ lo → hi < (ranges.length : Int) →
      hi - lo + 1 ≤ (fuel : Int) →
      (∀ (k : Nat), (hk : k < ranges.length) →
        ranges[k].start ≤ pos → pos < ranges[k].«end» → lo ≤ (k : Int) ∧ (k : Int) ≤ hi) →
      findAux ranges pos fuel lo hi = none →
      ∀ (k : Nat), (hk : k < ranges.length) → ¬(ranges[k].start ≤ pos ∧ pos < ranges[k].«end») := by
  intro fuel
  induction fuel with
  | zero =>
    intro lo hi _ _ hfuel hcont _ k hk hcontain
    have := hcont k hk hcontain.1 hcontain.2
    omega
  | succ n ih =>
    intro lo hi hlo hhi hfuel hcont hnone k hk hcontain
    simp only [findAux] at hnone
    split at hnone
    · rename_i hlohi
      have hmidlo : lo ≤ (lo + hi) / 2 := by omega
      have hmidhi : (lo + hi) / 2 ≤ hi := by omega
      have hmidlt : ((lo + hi) / 2).toNat < ranges.length := by omega
      have hreq : ranges.getD ((lo + hi) / 2).toNat ⟨0, 0⟩ = ranges[((lo + hi) / 2).toNat] :=
        getD_eq_getElem_of_lt _ _ _ hmidlt
      have hmgood := hwf.1 _ (List.getElem_mem hmidlt)
      split at hnone
      · rename_i hlt
        rw [hreq] at hlt
        refine ih lo ((lo + hi) / 2 - 1) hlo (by omega) (by omega) ?_ hnone k hk hcontain
        intro k' hk' hs he
        have hold := hcont k' hk' hs he
        refine ⟨hold.1, ?_⟩
        by_contra hgt
        have hge : ((lo + hi) / 2).toNat ≤ k' := by omega
        rcases Nat.eq_or_lt_of_le hge with heq | hlt2
        · subst heq; omega
        · have := wf_start_lt ranges len hwf _ _ hmidlt hk' hlt2
          omega
      · split at hnone
        · rename_i hlt hge
          rw [hreq] at hge
          refine ih ((lo + hi) / 2 + 1) hi (by omega) hhi (by omega) ?_ hnone k hk hcontain
          intro k' hk' hs he
          have hold := hcont k' hk' hs he
          refine ⟨?_, hold.2⟩
          by_contra hgt
          have hle : k' ≤ ((lo + hi) / 2).toNat := by omega
          rcases Nat.eq_or_lt_of_le hle with heq | hlt2
          · subst heq; omega
          · have := wf_start_lt ranges len hwf _ _ hk' hmidlt hlt2
            omega
        · simp at hnone
    · have := hcont k hk hcontain.1 hcontain.2
      omega

theorem findContainingRange_none (ranges : List TextRange) (len pos : Nat)
    (hwf : RangesWF ranges len) (h : findContainingRange ranges pos = none) :
    OutsideRanges ranges pos := by
  intro r hr
  rcases List.mem_iff_getElem.mp hr with ⟨k, hk, hr'⟩
  have := findAux_none ranges len pos hwf (ranges.length + 1) 0 ((ranges.length : Int) - 1)
    (by omega) (by omega) (by omega)
    (fun k' hk' _ _ => by omega) h k hk
  rw [hr'] at this
  omega

theorem skipForwardAux_ge (ranges : List TextRange) (len : Nat) :
    ∀ (fuel c : Nat), c ≤ skipForwardAux ranges len fuel c := by
  intro fuel
  induction fuel with
  | zero => intro c; simp [skipForwardAux]
  | succ n ih =>
    intro c
    simp only [skipForwardAux]
    split
    · rcases hfind : findContainingRange ranges c with _ | r
      · simp
      · simp only []
        have hs := findContainingRange_some ranges c r hfind
        exact le_trans (le_of_lt hs.2.2) (ih r.«end»)
    · exact le_refl c

theorem skipForwardAux_le_len (ranges : List TextRange) (len : Nat)
    (hwf : RangesWF ranges len) :
    ∀ (fuel c : Nat), c ≤ len → skipForwardAux ranges len fuel c ≤ len := by
  intro fuel
  induction fuel with
  | zero => intro c h; simpa [skipForwardAux] using h
  | succ n ih =>
    intro c h
    simp only [skipForwardAux]
    split
    · rcases hfind : findContainingRange ranges c with _ | r
      · simpa using h
      · simp only []
        have hs := findContainingRange_some ranges c r hfind
        exact ih r.«end» ((hwf.1 r hs.1).2)
    · exact h

theorem skipForwardAux_out (ranges : List TextRange) (len : Nat)
    (hwf : RangesWF ranges len) :
    ∀ (fuel c : Nat), len ≤ c + fuel →
      OutsideRanges ranges (skipForwardAux ranges len fuel c) := by
  intro fuel
  induction fuel with
  | zero =>
    intro c h
    simp only [skipForwardAux]
    intro r hr
    have := (hwf.1 r hr).2
    omega
  | succ n ih =>
    intro c h
    simp only [skipForwardAux]
    split
    · rcases hfind : findContainingRange ranges c with _ | r
      · simp only []
        exact findContainingRange_none ranges len c hwf hfind
      · simp only []
        have hs := findContainingRange_some ranges c r hfind
        exact ih r.«end» (by omega)
    · rename_i hc
      intro r hr
      have := (hwf.1 r hr).2
      omega

theorem skipForwardAux_min (ranges : List TextRange) (len : Nat) :
    ∀ (fuel c j : Nat), c ≤ j → j < skipForwardAux ranges len fuel c →
      ∃ r ∈ ranges, r.start ≤ j ∧ j < r.«end» := by
  intro fuel
  induction fuel with
  | zero => intro c j hcj hj; simp [skipForwardAux] at hj; omega
  | succ n ih =>
    intro c j hcj hj
    simp only [skipForwardAux] at hj
    split at hj
    · rcases hfind : findContainingRange ranges c with _ | r <;> rw [hfind] at hj
      · simp at hj; omega
      · simp only [] at hj
        have hs := findContainingRange_some ranges c r hfind
        by_cases hjr : j < r.«end»
        · exact ⟨r, hs.1, le_trans hs.2.1 hcj, hjr⟩
        · exact ih r.«end» j (by omega) hj
    · omega

theorem skipForwardAux_noop (ranges : List TextRange) (len : Nat) (c : Nat)
    (hout : OutsideRanges ranges c) :
    ∀ fuel : Nat, skipForwardAux ranges len fuel c = c := by
  intro fuel
  cases fuel with
  | zero => rfl
  | succ n =>
    simp only [skipForwardAux]
    split
    · rcases hfind : findContainingRange ranges c with _ | r
      · simp
      · have hs := findContainingRange_some ranges c r hfind
        have := hout r hs.1
        omega
    · rfl

theorem skipForwardCursor_ge (ranges : List TextRange) (len c : Nat) :
    c ≤ skipForwardCursor ranges len c :=
  skipForwardAux_ge ranges len _ c

theorem skipForwardCursor_le_len (ranges : List TextRange) (len c : Nat)
    (hwf : RangesWF ranges len) (h : c ≤ len) : skipForwardCursor ranges len c ≤ len :=
  skipForwardAux_le_len ranges len hwf _ c h

theorem skipForwardCursor_out (ranges : List TextRange) (len c : Nat)
    (hwf : RangesWF ranges len) : OutsideRanges ranges (skipForwardCursor ranges len c) :=
  skipForwardAux_out ranges len hwf _ c (by omega)

theorem skipForwardCursor_min (ranges : List TextRange) (len c j : Nat)
    (hcj : c ≤ j) (hj : j < skipForwardCursor ranges len c) :
    ∃ r ∈ ranges, r.start ≤ j ∧ j < r.«end» :=
  skipForwardAux_min ranges len _ c j hcj hj

theorem skipForwardCursor_noop (ranges : List TextRange) (len c : Nat)
    (hout : OutsideRanges ranges c) : skipForwardCursor ranges len c = c :=
  skipForwardAux_noop ranges len c hout _

theorem skipForwardIfNeeded_eq (s : TypingEngineState) :
    skipForwardIfNeeded s
      = { s with cursor := skipForwardCursor s.skipRanges s.text.length s.cursor } := by
  unfold skipForwardIfNeeded
  split
  · rename_i h
    have hnoop : skipForwardCursor s.skipRanges s.text.length s.cursor = s.cursor := by
      rw [h]
      exact skipForwardCursor_noop [] _ _ (fun r hr => by cases hr)
    rw [hnoop]
  · rfl

theorem createTypingEngine_eq (text : List Char) (slackN : Int) (auto : Bool)
    (raw : List RawRange) (allowWs : Bool) :
    createTypingEngine text slackN auto raw allowWs
      = { text := text
          slackN := (max 0 slackN).toNat
          autoSkipBlankLines := auto
          allowWhitespaceAdvanceToNewline := allowWs
          skipRanges := normalizeRanges raw text.length
          cursor := skipForwardCursor (normalizeRanges raw text.length) text.length 0
          typedEnd := 0
          errorActive := false
          firstErrorIndex := -1
          firstErrorTypedProgress := -1
          locked := false
          marks := List.replicate text.length Mark.UNTOUCHED
          countedCorrect := List.replicate text.length false
          typedPositions := []
          typeableChars := max 0 ((text.length : Int) - (sumRangeLengths (normalizeRanges raw text.length) : Int))
          typedKeystrokes := 0
          incorrect := 0
          collateral := 0
          backspaces := 0
          correctChars := 0 } := by
  unfold createTypingEngine
  rw [skipForwardIfNeeded_eq]

/-- C10: for every argument list — even unsorted, overlapping,
non-integral or out-of-bounds skip ranges — the created engine stores a
sorted, pairwise-separated list of nonempty ranges clamped to the text
length; typeableChars equals the text length minus the summed length of
the stored (merged) ranges and lies in [0, len]; and the initial cursor
is the smallest offset of [0, len] not inside any stored range. -/
theorem claim_C10 (text : List Char) (slackN : Int) (auto : Bool)
    (skipRanges : List RawRange) (allowWs : Bool) :
    (createTypingEngine text slackN auto skipRanges allowWs).skipRanges.Pairwise
        (fun a b => a.«end» < b.start)
    ∧ (∀ r ∈ (createTypingEngine text slackN auto skipRanges allowWs).skipRanges,
        r.start < r.«end» ∧ r.«end» ≤ text.length)
    ∧ (createTypingEngine text slackN auto skipRanges allowWs).typeableChars
        = (text.length : Int)
          - (sumRangeLengths (createTypingEngine text slackN auto skipRanges allowWs).skipRanges : Int)
    ∧ 0 ≤ (createTypingEngine text slackN auto skipRanges allowWs).typeableChars
    ∧ (createTypingEngine text slackN auto skipRanges allowWs).typeableChars ≤ (text.length : Int)
    ∧ OutsideRanges (createTypingEngine text slackN auto skipRanges allowWs).skipRanges
        (createTypingEngine text slackN auto skipRanges allowWs).cursor
    ∧ (createTypingEngine text slackN auto skipRanges allowWs).cursor ≤ text.length
    ∧ (∀ j < (createTypingEngine text slackN auto skipRanges allowWs).cursor,
        ∃ r ∈ (createTypingEngine text slackN auto skipRanges allowWs).skipRanges,
          r.start ≤ j ∧ j < r.«end») := by
  rw [createTypingEngine_eq]
  have hwf := normalizeRanges_wf skipRanges text.length
  have hsum := sumRangeLengths_le _ _ hwf
  refine ⟨hwf.2, hwf.1, ?_, ?_, ?_, ?_, ?_, ?_⟩
  · simp only []
    omega
  · simp only []
    omega
  · simp only []
    omega
  · exact skipForwardCursor_out _ _ _ hwf
  · exact skipForwardCursor_le_len _ _ _ hwf (Nat.zero_le _)
  · intro j hj
    exact skipForwardCursor_min _ _ 0 j (Nat.zero_le _) hj

/-! ## Normalization idempotence lemmas -/

theorem replaceCrLf_cons_ne (c : Char) (rest : List Char) (hc : c ≠ '\r') :
    replaceCrLf (c :: rest) = c :: replaceCrLf rest := by
  conv_lhs => rw [replaceCrLf.eq_def]
  split
  · rename_i heq
    rw [List.cons.injEq] at heq
    exact absurd heq.1 hc
  · rename_i heq
    rw [List.cons.injEq] at heq
    rw [heq.1, heq.2]
  · rename_i heq
    cases heq

theorem replaceCrLf_eq_self : ∀ l : List Char, '\r' ∉ l → replaceCrLf l = l := by
  intro l
  induction l with
  | nil => intro _; rfl
  | cons c rest ih =>
    intro h
    have hc : c ≠ '\r' := by
      intro hh
      exact h (by rw [hh]; exact List.mem_cons_self _ _)
    have hrest : '\r' ∉ rest := fun hm => h (List.mem_cons_of_mem _ hm)
    rw [replaceCrLf_cons_ne c rest hc, ih hrest]

theorem map_eq_self_of_mem {α : Type} (l : List α) (f : α → α) (h : ∀ c ∈ l, f c = c) :
    l.map f = l := by
  induction l with
  | nil => rfl
  | cons c rest ih =>
    simp only [List.map_cons]
    rw [h c (List.mem_cons_self _ _), ih fun q hq => h q (List.mem_cons_of_mem _ hq)]

theorem flatMap_eq_self (l : List Char) (f : Char → List Char) (h : ∀ c ∈ l, f c = [c]) :
    l.flatMap f = l := by
  induction l with
  | nil => rfl
  | cons c rest ih =>
    rw [List.flatMap_cons, h c (List.mem_cons_self _ _),
      ih fun q hq => h q (List.mem_cons_of_mem _ hq)]
    rfl

theorem normalizeText_no_cr (x : List Char) (w : Int) : '\r' ∉ normalizeText x w := by
  simp only [normalizeText]
  intro hmem
  split at hmem
  · rcases List.mem_flatMap.mp hmem with ⟨a, ha, hc⟩
    rcases List.mem_map.mp ha with ⟨b, _, hb⟩
    split at hc
    · rcases List.eq_of_mem_replicate hc with h
      cases h
    · rcases List.mem_singleton.mp hc with h
      rw [← h] at hb
      split at hb <;> simp_all
  · rcases List.mem_flatMap.mp hmem with ⟨a, ha, hc⟩
    rcases List.mem_map.mp ha with ⟨b, _, hb⟩
    split at hc
    · cases hc
    · rcases List.mem_singleton.mp hc with h
      rw [← h] at hb
      split at hb <;> simp_all

theorem normalizeText_no_tab (x : List Char) (w : Int) : '\t' ∉ normalizeText x w := by
  simp only [normalizeText]
  intro hmem
  split at hmem
  · rcases List.mem_flatMap.mp hmem with ⟨a, _, hc⟩
    split at hc
    · rcases List.eq_of_mem_replicate hc with h
      cases h
    · rename_i hne
      rcases List.mem_singleton.mp hc with h
      rw [← h] at hne
      exact hne rfl
  · rcases List.mem_flatMap.mp hmem with ⟨a, _, hc⟩
    split at hc
    · cases hc
    · rename_i hne
      rcases List.mem_singleton.mp hc with h
      rw [← h] at hne
      exact hne rfl

theorem normalizeText_fixed (l : List Char) (w : Int)
    (hcr : '\r' ∉ l) (htab : '\t' ∉ l) (hbom : l.head? ≠ some '\uFEFF') :
    normalizeText l w = l := by
  simp only [normalizeText]
  rw [if_neg hbom]
  rw [replaceCrLf_eq_self _ hcr]
  rw [map_eq_self_of_mem _ _ (fun c hc => by
    split
    · rename_i hc2
      rw [hc2] at hc
      exact absurd hc hcr
    · rfl)]
  split
  · exact flatMap_eq_self _ _ (fun c hc => by
      split
      · rename_i hc2
        rw [hc2] at hc
        exact absurd hc htab
      · rfl)
  · exact flatMap_eq_self _ _ (fun c hc => by
      split
      · rename_i hc2
        rw [hc2] at hc
        exact absurd hc htab
      · rfl)

/-- C9 (amended): normalization is idempotent on every input whose
normalization does not start with U+FEFF. -/
theorem claim_C9_amended (x : List Char) (w : Int) (_hw : 0 ≤ w)
    (hbom : (normalizeText x w).head? ≠ some '\uFEFF') :
    normalizeText (normalizeText x w) w = normalizeText x w :=
  normalizeText_fixed (normalizeText x w) w
    (normalizeText_no_cr x w) (normalizeText_no_tab x w) hbom

/-- Witness for the amended C9 at a concrete input. -/
theorem claim_C9_amended_witness :
    (0 ≤ (2 : Int) ∧ (normalizeText "a\tb\r\nc".toList 2).head? ≠ some '\uFEFF')
    ∧ normalizeText (normalizeText "a\tb\r\nc".toList 2) 2 = normalizeText "a\tb\r\nc".toList 2 :=
  ⟨⟨by decide, by decide⟩, claim_C9_amended "a\tb\r\nc".toList 2 (by decide) (by decide)⟩

/-! ## Segmenter oversize-line lemmas -/

theorem splitOnNl_no_nl (l : List Char) (h : '\n' ∉ l) : splitOnNl l = [l] := by
  induction l with
  | nil => rfl
  | cons c rest ih =>
    have hc : c ≠ '\n' := by
      intro hh
      exact h (by rw [hh]; exact List.mem_cons_self _ _)
    have hrest : '\n' ∉ rest := fun hm => h (List.mem_cons_of_mem _ hm)
    simp only [splitOnNl, if_neg hc, ih hrest]

theorem lineStartOffsets_single (l : List Char) : lineStartOffsets [l] = [0] := by
  simp [lineStartOffsets, List.scanl]

theorem sliceList_length (l : List Char) (a cap : Nat) :
    (sliceList l a (a + cap)).length = min cap (l.length - a) := by
  simp [sliceList]

theorem ceil_div_succ (d cap : Nat) (hcap : 0 < cap) (hd : 0 < d) :
    (d - cap + cap - 1) / cap + 1 = (d + cap - 1) / cap := by
  have h3 : d + cap - 1 = (d - 1) + cap := by omega
  rw [h3, Nat.add_div_right _ hcap]
  rcases le_or_lt d cap with h | h
  · have h1 : d - cap + cap - 1 = cap - 1 := by omega
    rw [h1, Nat.div_eq_of_lt (by omega), Nat.div_eq_of_lt (by omega)]
  · have h1 : d - cap + cap - 1 = d - 1 := by omega
    rw [h1]

theorem sliceLoop_length (line : List Char) (ln L cap : Nat) (hcap : 0 < cap) :
    ∀ (fuel offset idx : Nat), line.length ≤ offset + fuel →
      (sliceLoop line ln L cap fuel idx offset).length
        = (line.length - offset + cap - 1) / cap := by
  intro fuel
  induction fuel with
  | zero =>
    intro offset idx hfuel
    have h0 : line.length - offset = 0 := by omega
    simp only [sliceLoop, List.length_nil, h0]
    rw [Nat.div_eq_of_lt (by omega)]
  | succ n ih =>
    intro offset idx hfuel
    simp only [sliceLoop]
    split
    · rename_i hofs
      simp only [List.length_cons]
      rw [ih (offset + cap) (idx + 1) (by omega)]
      have harith : line.length - (offset + cap) = line.length - offset - cap := by omega
      rw [harith]
      exact ceil_div_succ (line.length - offset) cap hcap (by omega)
    · rename_i hofs
      have h0 : line.length - offset = 0 := by omega
      simp only [List.length_nil, h0]
      rw [Nat.div_eq_of_lt (by omega)]

theorem sliceLoop_getD (line : List Char) (ln L cap : Nat) (hcap : 0 < cap) :
    ∀ (fuel offset idx j : Nat), line.length ≤ offset + fuel →
      j < (sliceLoop line ln L cap fuel idx offset).length →
      (sliceLoop line ln L cap fuel idx offset).getD j ⟨0, 0, 0, [], 0, 0⟩
        = { index := idx + j
            startLine := ln
            endLine := ln
            text := sliceList line (offset + j * cap) (offset + j * cap + cap)
            startOffset := L + (offset + j * cap)
            endOffset := L + (offset + j * cap)
              + (sliceList line (offset + j * cap) (offset + j * cap + cap)).length } := by
  intro fuel
  induction fuel with
  | zero =>
    intro offset idx j hfuel hj
    simp [sliceLoop] at hj
  | succ n ih =>
    intro offset idx j hfuel hj
    simp only [sliceLoop] at hj ⊢
    by_cases hofs : offset < line.length
    · rw [if_pos hofs] at hj ⊢
      cases j with
      | zero =>
        simp
      | succ j' =>
        simp only [List.length_cons, Nat.succ_lt_succ_iff] at hj
        simp only [List.getD_cons_succ]
        rw [ih (offset + cap) (idx + 1) j' (by omega) hj]
        congr 1 <;> ring_nf
    · rw [if_neg hofs] at hj
      simp at hj

theorem split_single_oversize (normalized : List Char) (per m : Int)
    (hnl : '\n' ∉ normalized) (hm : 0 < m)
    (hlen : (max 1 m).toNat < normalized.length) :
    splitNormalizedByLinesWithOffsets normalized per m
      = sliceLoop normalized 1 0 ((max 1 m).toNat) normalized.length 0 0 := by
  have hlines : splitOnNl normalized = [normalized] := splitOnNl_no_nl normalized hnl
  have hr1 : List.range 1 = [0] := rfl
  simp only [splitNormalizedByLinesWithOffsets, hlines, lineStartOffsets_single,
    List.length_singleton, hr1, List.foldl_cons, List.foldl_nil]
  rw [if_pos hm]
  simp only [segLoopBody, List.getD_cons_zero]
  simp [hlen]

theorem take_min_length {α : Type} (xs : List α) (c : Nat) :
    xs.take (min c xs.length) = xs.take c := by
  rcases le_or_lt c xs.length with h | h
  · rw [min_eq_left h]
  · rw [min_eq_right (le_of_lt h), List.take_length, List.take_of_length_le (le_of_lt h)]

theorem sliceList_self_length (l : List Char) (a cap : Nat) :
    sliceList l a (a + (sliceList l a (a + cap)).length) = sliceList l a (a + cap) := by
  simp only [sliceList]
  have h1 : a + ((l.drop a).take (a + cap - a)).length - a
      = ((l.drop a).take (a + cap - a)).length := by omega
  rw [h1, List.length_take]
  have h2 : a + cap - a = cap := by omega
  rw [h2]
  exact take_min_length _ _

/-- C6: on a single-line normalized input longer than the (finite,
positive) character cap, the segmenter emits exactly ⌈len/cap⌉ segments;
all but possibly the last have text length exactly cap; every segment
spans line 1 to line 1; each segment's text is the slice
normalized[startOffset:endOffset] with endOffset = startOffset + len(text);
and consecutive segments are offset-contiguous. -/
theorem claim_C6 (normalized : List Char) (linesPerSegment maxSegmentChars : Int)
    (hnl : '\n' ∉ normalized) (hm : 0 < maxSegmentChars)
    (hlen : (max 1 maxSegmentChars).toNat < normalized.length) :
    (splitNormalizedByLinesWithOffsets normalized linesPerSegment maxSegmentChars).length
        = (normalized.length + (max 1 maxSegmentChars).toNat - 1) / (max 1 maxSegmentChars).toNat
    ∧ (∀ j, j + 1 < (splitNormalizedByLinesWithOffsets normalized linesPerSegment maxSegmentChars).length →
        ((splitNormalizedByLinesWithOffsets normalized linesPerSegment maxSegmentChars).getD j
          ⟨0, 0, 0, [], 0, 0⟩).text.length = (max 1 maxSegmentChars).toNat)
    ∧ (∀ seg ∈ splitNormalizedByLinesWithOffsets normalized linesPerSegment maxSegmentChars,
        seg.startLine = 1 ∧ seg.endLine = 1)
    ∧ (∀ seg ∈ splitNormalizedByLinesWithOffsets normalized linesPerSegment maxSegmentChars,
        seg.text = sliceList normalized seg.startOffset seg.endOffset
        ∧ seg.endOffset = seg.startOffset + seg.text.length)
    ∧ (splitNormalizedByLinesWithOffsets normalized linesPerSegment maxSegmentChars).Chain'
        (fun a b => b.startOffset = a.endOffset) := by
  have hcap : 0 < (max 1 maxSegmentChars).toNat := by omega
  have hsplit := split_single_oversize normalized linesPerSegment maxSegmentChars hnl hm hlen
  rw [hsplit]
  have hfuel : normalized.length ≤ 0 + normalized.length := by omega
  have hlength := sliceLoop_length normalized 1 0 _ hcap normalized.length 0 0 hfuel
  rw [Nat.sub_zero] at hlength
  have hgetD := fun j hj => sliceLoop_getD normalized 1 0 _ hcap normalized.length 0 0 j hfuel hj
  have hfull : ∀ j, j + 1 < (normalized.length + (max 1 maxSegmentChars).toNat - 1)
        / (max 1 maxSegmentChars).toNat →
      j * (max 1 maxSegmentChars).toNat + (max 1 maxSegmentChars).toNat ≤ normalized.length := by
    intro j hj
    have h3 := (Nat.le_div_iff_mul_le hcap).mp
      (by omega : j + 2 ≤ (normalized.length + (max 1 maxSegmentChars).toNat - 1)
        / (max 1 maxSegmentChars).toNat)
    have h4 : (j + 2) * (max 1 maxSegmentChars).toNat
        = j * (max 1 maxSegmentChars).toNat + (max 1 maxSegmentChars).toNat
          + (max 1 maxSegmentChars).toNat := by ring
    omega
  refine ⟨hlength, ?_, ?_, ?_, ?_⟩
  · intro j hj
    rw [hgetD j (by omega)]
    simp only []
    rw [sliceList_length]
    rw [hlength] at hj
    have := hfull j hj
    omega
  · intro seg hseg
    rcases List.mem_iff_getElem.mp hseg with ⟨k, hk, hkeq⟩
    rw [← hkeq, ← getD_eq_getElem_of_lt _ (⟨0, 0, 0, [], 0, 0⟩ : TextSegmentWithOffsets) _ hk,
      hgetD k hk]
    exact ⟨rfl, rfl⟩
  · intro seg hseg
    rcases List.mem_iff_getElem.mp hseg with ⟨k, hk, hkeq⟩
    rw [← hkeq, ← getD_eq_getElem_of_lt _ (⟨0, 0, 0, [], 0, 0⟩ : TextSegmentWithOffsets) _ hk,
      hgetD k hk]
    refine ⟨?_, rfl⟩
    simp only [Nat.zero_add]
    exact (sliceList_self_length normalized (k * (max 1 maxSegmentChars).toNat) _).symm
  · rw [List.chain'_iff_get]
    intro i hi
    have hi1 : i < (sliceLoop normalized 1 0 (max 1 maxSegmentChars).toNat
        normalized.length 0 0).length := by omega
    have hi2 : i + 1 < (sliceLoop normalized 1 0 (max 1 maxSegmentChars).toNat
        normalized.length 0 0).length := by omega
    rw [List.get_eq_getElem, List.get_eq_getElem,
      ← getD_eq_getElem_of_lt _ (⟨0, 0, 0, [], 0, 0⟩ : TextSegmentWithOffsets) _ hi1,
      ← getD_eq_getElem_of_lt _ (⟨0, 0, 0, [], 0, 0⟩ : TextSegmentWithOffsets) _ hi2,
      hgetD i hi1, hgetD (i + 1) hi2]
    simp only [Nat.zero_add]
    rw [sliceList_length]
    rw [hlength] at hi2
    have := hfull i (by omega)
    have h5 : (i + 1) * (max 1 maxSegmentChars).toNat
        = i * (max 1 maxSegmentChars).toNat + (max 1 maxSegmentChars).toNat := by ring
    omega

/-- Witness for C6 at normalized = "abcde", cap = 2. -/
theorem claim_C6_witness :
    ('\n' ∉ "abcde".toList ∧ (0 : Int) < 2 ∧ (max 1 (2 : Int)).toNat < "abcde".toList.length)
    ∧ ((splitNormalizedByLinesWithOffsets "abcde".toList 200 2).length
        = ("abcde".toList.length + (max 1 (2 : Int)).toNat - 1) / (max 1 (2 : Int)).toNat
      ∧ (∀ j, j + 1 < (splitNormalizedByLinesWithOffsets "abcde".toList 200 2).length →
          ((splitNormalizedByLinesWithOffsets "abcde".toList 200 2).getD j
            ⟨0, 0, 0, [], 0, 0⟩).text.length = (max 1 (2 : Int)).toNat)
      ∧ (∀ seg ∈ splitNormalizedByLinesWithOffsets "abcde".toList 200 2,
          seg.startLine = 1 ∧ seg.endLine = 1)
      ∧ (∀ seg ∈ splitNormalizedByLinesWithOffsets "abcde".toList 200 2,
          seg.text = sliceList "abcde".toList seg.startOffset seg.endOffset
          ∧ seg.endOffset = seg.startOffset + seg.text.length)
      ∧ (splitNormalizedByLinesWithOffsets "abcde".toList 200 2).Chain'
          (fun a b => b.startOffset = a.endOffset)) :=
  ⟨⟨by decide, by decide, by decide⟩,
    claim_C6 "abcde".toList 200 2 (by decide) (by decide) (by decide)⟩

/-! ## setMark lemmas -/

@[simp] theorem setMark_text (s : TypingEngineState) (i : Nat) (m : Mark) (b : Bool) :
    (setMark s i m b).text = s.text := by
  unfold setMark; split <;> rfl

@[simp] theorem setMark_cursor (s : TypingEngineState) (i : Nat) (m : Mark) (b : Bool) :
    (setMark s i m b).cursor = s.cursor := by
  unfold setMark; split <;> rfl

@[simp] theorem setMark_typedEnd (s : TypingEngineState) (i : Nat) (m : Mark) (b : Bool) :
    (setMark s i m b).typedEnd = s.typedEnd := by
  unfold setMark; split <;> rfl

@[simp] theorem setMark_typedPositions (s : TypingEngineState) (i : Nat) (m : Mark) (b : Bool) :
    (setMark s i m b).typedPositions = s.typedPositions := by
  unfold setMark; split <;> rfl

@[simp] theorem setMark_skipRanges (s : TypingEngineState) (i : Nat) (m : Mark) (b : Bool) :
    (setMark s i m b).skipRanges = s.skipRanges := by
  unfold setMark; split <;> rfl

@[simp] theorem setMark_slackN (s : TypingEngineState) (i : Nat) (m : Mark) (b : Bool) :
    (setMark s i m b).slackN = s.slackN := by
  unfold setMark; split <;> rfl

@[simp] theorem setMark_autoSkipBlankLines (s : TypingEngineState) (i : Nat) (m : Mark) (b : Bool) :
    (setMark s i m b).autoSkipBlankLines = s.autoSkipBlankLines := by
  unfold setMark; split <;> rfl

@[simp] theorem setMark_allowWhitespaceAdvanceToNewline (s : TypingEngineState) (i : Nat) (m : Mark) (b : Bool) :
    (setMark s i m b).allowWhitespaceAdvanceToNewline = s.allowWhitespaceAdvanceToNewline := by
  unfold setMark; split <;> rfl

@[simp] theorem setMark_errorActive (s : TypingEngineState) (i : Nat) (m : Mark) (b : Bool) :
    (setMark s i m b).errorActive = s.errorActive := by
  unfold setMark; split <;> rfl

@[simp] theorem setMark_firstErrorIndex (s : TypingEngineState) (i : Nat) (m : Mark) (b : Bool) :
    (setMark s i m b).firstErrorIndex = s.firstErrorIndex := by
  unfold setMark; split <;> rfl

@[simp] theorem setMark_firstErrorTypedProgress (s : TypingEngineState) (i : Nat) (m : Mark) (b : Bool) :
    (setMark s i m b).firstErrorTypedProgress = s.firstErrorTypedProgress := by
  unfold setMark; split <;> rfl

@[simp] theorem setMark_locked (s : TypingEngineState) (i : Nat) (m : Mark) (b : Bool) :
    (setMark s i m b).locked = s.locked := by
  unfold setMark; split <;> rfl

@[simp] theorem setMark_typeableChars (s : TypingEngineState) (i : Nat) (m : Mark) (b : Bool) :
    (setMark s i m b).typeableChars = s.typeableChars := by
  unfold setMark; split <;> rfl

@[simp] theorem setMark_typedKeystrokes (s : TypingEngineState) (i : Nat) (m : Mark) (b : Bool) :
    (setMark s i m b).typedKeystrokes = s.typedKeystrokes := by
  unfold setMark; split <;> rfl

@[simp] theorem setMark_incorrect (s : TypingEngineState) (i : Nat) (m : Mark) (b : Bool) :
    (setMark s i m b).incorrect = s.incorrect := by
  unfold setMark; split <;> rfl

@[simp] theorem setMark_collateral (s : TypingEngineState) (i : Nat) (m : Mark) (b : Bool) :
    (setMark s i m b).collateral = s.collateral := by
  unfold setMark; split <;> rfl

@[simp] theorem setMark_backspaces (s : TypingEngineState) (i : Nat) (m : Mark) (b : Bool) :
    (setMark s i m b).backspaces = s.backspaces := by
  unfold setMark; split <;> rfl

@[simp] theorem setMark_marks_length (s : TypingEngineState) (i : Nat) (m : Mark) (b : Bool) :
    (setMark s i m b).marks.length = s.marks.length := by
  unfold setMark
  split
  · rfl
  · simp

@[simp] theorem setMark_counted_length (s : TypingEngineState) (i : Nat) (m : Mark) (b : Bool) :
    (setMark s i m b).countedCorrect.length = s.countedCorrect.length := by
  unfold setMark
  split
  · rfl
  · simp

theorem getD_set_eq {α : Type} (l : List α) (i j : Nat) (v d : α) (hi : i < l.length) :
    (l.set i v).getD j d = if j = i then v else l.getD j d := by
  rw [List.getD_eq_getElem?_getD, List.getD_eq_getElem?_getD, List.getElem?_set]
  by_cases hij : i = j
  · subst hij
    simp [hi]
  · rw [if_neg hij, if_neg (fun h => hij h.symm)]

theorem setMark_oob (s : TypingEngineState) (i : Nat) (m : Mark) (b : Bool)
    (hi : s.marks.length ≤ i) : setMark s i m b = s := by
  unfold setMark
  rw [if_pos hi]

theorem setMark_marks (s : TypingEngineState) (i : Nat) (m : Mark) (b : Bool)
    (hi : i < s.marks.length) : (setMark s i m b).marks = s.marks.set i m := by
  unfold setMark
  rw [if_neg (not_le.mpr hi)]

theorem setMark_counted (s : TypingEngineState) (i : Nat) (m : Mark) (b : Bool)
    (hi : i < s.marks.length) :
    (setMark s i m b).countedCorrect = s.countedCorrect.set i ((m == Mark.CORRECT) && b) := by
  unfold setMark
  rw [if_neg (not_le.mpr hi)]

theorem setMark_correctChars (s : TypingEngineState) (i : Nat) (m : Mark) (b : Bool)
    (hi : i < s.marks.length) :
    (setMark s i m b).correctChars =
      s.correctChars
        - (if ((s.marks.getD i Mark.UNTOUCHED == Mark.CORRECT) && s.countedCorrect.getD i false)
             && !((m == Mark.CORRECT) && b) then 1 else 0)
        + (if !((s.marks.getD i Mark.UNTOUCHED == Mark.CORRECT) && s.countedCorrect.getD i false)
             && ((m == Mark.CORRECT) && b) then 1 else 0) := by
  unfold setMark
  rw [if_neg (not_le.mpr hi)]
  cases hA : (s.marks.getD i Mark.UNTOUCHED == Mark.CORRECT) && s.countedCorrect.getD i false
  <;> cases hB : (m == Mark.CORRECT) && b
  <;> (simp only [hA, hB, Bool.not_true, Bool.not_false, Bool.and_true, Bool.and_false,
        Bool.true_and, Bool.false_and, if_true, if_false]; simp)

theorem setMark_marks_getD (s : TypingEngineState) (i : Nat) (m : Mark) (b : Bool)
    (hi : i < s.marks.length) (j : Nat) :
    (setMark s i m b).marks.getD j Mark.UNTOUCHED
      = if j = i then m else s.marks.getD j Mark.UNTOUCHED := by
  rw [setMark_marks s i m b hi]
  exact getD_set_eq _ _ _ _ _ hi

theorem setMark_counted_getD (s : TypingEngineState) (i : Nat) (m : Mark) (b : Bool)
    (hi : i < s.marks.length) (hlen : s.countedCorrect.length = s.marks.length) (j : Nat) :
    (setMark s i m b).countedCorrect.getD j false
      = if j = i then ((m == Mark.CORRECT) && b) else s.countedCorrect.getD j false := by
  rw [setMark_counted s i m b hi]
  exact getD_set_eq _ _ _ _ _ (by omega)

theorem setMark_preserves_correct_eq (s : TypingEngineState) (i : Nat) (m : Mark) (b : Bool)
    (hc : s.correctChars = (s.countedCorrect.count true : Int))
    (himp : ∀ k, s.countedCorrect.getD k false = true → s.marks.getD k Mark.UNTOUCHED = Mark.CORRECT)
    (hlen : s.countedCorrect.length = s.marks.length) :
    (setMark s i m b).correctChars = ((setMark s i m b).countedCorrect.count true : Int) := by
  by_cases hi : s.marks.length ≤ i
  · rw [setMark_oob s i m b hi]
    exact hc
  · push_neg at hi
    have hic : i < s.countedCorrect.length := by omega
    rw [setMark_correctChars s i m b hi, setMark_counted s i m b hi,
      List.count_set ((m == Mark.CORRECT) && b) true s.countedCorrect i hic]
    have hgetd : s.countedCorrect.getD i false = s.countedCorrect[i] :=
      getD_eq_getElem_of_lt _ _ _ hic
    have hA : ((s.marks.getD i Mark.UNTOUCHED == Mark.CORRECT) && s.countedCorrect.getD i false)
        = s.countedCorrect.getD i false := by
      cases hcc : s.countedCorrect.getD i false
      · simp
      · rw [himp i hcc]
        simp
    rw [hA, hgetd]
    have hpos : s.countedCorrect[i] = true → 1 ≤ s.countedCorrect.count true := by
      intro hv
      have hmem : true ∈ s.countedCorrect := by
        rw [← hv]
        exact List.getElem_mem hic
      exact List.one_le_count_iff.mpr hmem
    cases hcc : s.countedCorrect[i]
    · cases hB : ((m == Mark.CORRECT) && b)
      · simp
        omega
      · simp
        omega
    · have hge := hpos hcc
      cases hB : ((m == Mark.CORRECT) && b)
      · simp
        omega
      · simp
        omega

theorem setMark_preserves_counted_imp (s : TypingEngineState) (i : Nat) (m : Mark) (b : Bool)
    (himp : ∀ k, s.countedCorrect.getD k false = true → s.marks.getD k Mark.UNTOUCHED = Mark.CORRECT)
    (hlen : s.countedCorrect.length = s.marks.length) :
    ∀ k, (setMark s i m b).countedCorrect.getD k false = true →
      (setMark s i m b).marks.getD k Mark.UNTOUCHED = Mark.CORRECT := by
  by_cases hi : s.marks.length ≤ i
  · rw [setMark_oob s i m b hi]
    exact himp
  · push_neg at hi
    intro k hk
    rw [setMark_counted_getD s i m b hi hlen k] at hk
    rw [setMark_marks_getD s i m b hi k]
    by_cases hki : k = i
    · rw [if_pos hki] at hk
      rw [if_pos hki]
      cases m <;> simp_all
    · rw [if_neg hki] at hk
      rw [if_neg hki]
      exact himp k hk

/-! ## Auto-skip-newlines walk lemmas -/

theorem asn_aux_pres (fuel : Nat) : ∀ s : TypingEngineState,
    (autoSkipNewlinesAux fuel s).text = s.text
    ∧ (autoSkipNewlinesAux fuel s).skipRanges = s.skipRanges
    ∧ (autoSkipNewlinesAux fuel s).typedPositions = s.typedPositions
    ∧ (autoSkipNewlinesAux fuel s).typedEnd = s.typedEnd
    ∧ (autoSkipNewlinesAux fuel s).marks.length = s.marks.length
    ∧ (autoSkipNewlinesAux fuel s).countedCorrect.length = s.countedCorrect.length
    ∧ s.cursor ≤ (autoSkipNewlinesAux fuel s).cursor
    ∧ (autoSkipNewlinesAux fuel s).cursor ≤ max s.cursor s.text.length := by
  induction fuel with
  | zero =>
    intro s
    refine ⟨rfl, rfl, rfl, rfl, rfl, rfl, le_refl _, ?_⟩
    simp [autoSkipNewlinesAux]
  | succ n ih =>
    intro s
    simp only [autoSkipNewlinesAux]
    split
    · rename_i hcond
      have hrec := ih { setMark s s.cursor Mark.CORRECT false with
        cursor := (setMark s s.cursor Mark.CORRECT false).cursor + 1 }
      simp only [setMark_text, setMark_skipRanges, setMark_typedPositions, setMark_typedEnd,
        setMark_marks_length, setMark_counted_length, setMark_cursor] at hrec ⊢
      refine ⟨hrec.1, hrec.2.1, hrec.2.2.1, hrec.2.2.2.1, hrec.2.2.2.2.1, hrec.2.2.2.2.2.1, ?_, ?_⟩
      · have := hrec.2.2.2.2.2.2.1
        omega
      · have h1 := hrec.2.2.2.2.2.2.2
        have h2 := hcond.1
        omega
    · exact ⟨rfl, rfl, rfl, rfl, rfl, rfl, le_refl _, by omega⟩

theorem asn_aux_core (fuel : Nat) : ∀ s : TypingEngineState,
    EngineInvCore s → EngineInvCore (autoSkipNewlinesAux fuel s) := by
  induction fuel with
  | zero => intro s h; exact h
  | succ n ih =>
    intro s hcore
    simp only [autoSkipNewlinesAux]
    split
    · rename_i hcond
      apply ih
      have hcurm : s.cursor < s.marks.length := by
        rw [hcore.marks_len]; exact hcond.1
      have hclen : s.countedCorrect.length = s.marks.length := by
        rw [hcore.marks_len, hcore.counted_len]
      constructor
      · simp [hcore.marks_len]
      · simp [hcore.counted_len]
      · simp only [setMark_typedEnd, setMark_cursor]
        have := hcore.typedEnd_le_cursor
        omega
      · simp only [setMark_text, setMark_cursor]
        exact hcond.1
      · simp only [setMark_text, setMark_skipRanges]
        exact hcore.ranges_wf
      · simp only [setMark_counted_length]
        exact setMark_preserves_correct_eq s s.cursor Mark.CORRECT false
          hcore.correct_eq hcore.counted_imp_correct hclen
      · exact setMark_preserves_counted_imp s s.cursor Mark.CORRECT false
          hcore.counted_imp_correct hclen
      · simp only [setMark_typedPositions]
        exact hcore.tp_sorted
      · simp only [setMark_typedPositions, setMark_typedEnd]
        exact hcore.tp_lt_typedEnd
      · simp only [setMark_typedPositions, setMark_skipRanges]
        exact hcore.tp_out
      · intro i
        simp only [setMark_typedPositions]
        unfold isUserTypedMark
        simp only []
        rw [setMark_marks_getD s s.cursor Mark.CORRECT false hcurm i,
          setMark_counted_getD s s.cursor Mark.CORRECT false hcurm hclen i]
        by_cases hic : i = s.cursor
        · rw [if_pos hic, if_pos hic]
          constructor
          · intro hmem
            have h1 := hcore.tp_lt_typedEnd i hmem
            have h2 := hcore.typedEnd_le_cursor
            omega
          · intro hbad
            simp at hbad
        · rw [if_neg hic, if_neg hic]
          exact hcore.tp_set i
    · exact hcore

theorem asn_core (s : TypingEngineState) (h : EngineInvCore s) :
    EngineInvCore (autoSkipNewlines s) :=
  asn_aux_core _ s h

/-! ## Invariant plumbing lemmas -/

theorem engineInvCore_congr (s t : TypingEngineState)
    (htext : t.text = s.text) (hmarks : t.marks = s.marks)
    (hcounted : t.countedCorrect = s.countedCorrect)
    (htE : t.typedEnd = s.typedEnd) (hcur : t.cursor = s.cursor)
    (hranges : t.skipRanges = s.skipRanges)
    (hcc : t.correctChars = s.correctChars) (htp : t.typedPositions = s.typedPositions)
    (h : EngineInvCore s) : EngineInvCore t := by
  constructor
  · rw [hmarks, htext]; exact h.marks_len
  · rw [hcounted, htext]; exact h.counted_len
  · rw [htE, hcur]; exact h.typedEnd_le_cursor
  · rw [hcur, htext]; exact h.cursor_le_len
  · rw [hranges, htext]; exact h.ranges_wf
  · rw [hcc, hcounted]; exact h.correct_eq
  · intro k; rw [hcounted, hmarks]; exact h.counted_imp_correct k
  · rw [htp]; exact h.tp_sorted
  · rw [htp, htE]; exact h.tp_lt_typedEnd
  · rw [htp, hranges]; exact h.tp_out
  · intro i
    rw [htp]
    unfold isUserTypedMark
    rw [hcounted, hmarks]
    have := h.tp_set i
    unfold isUserTypedMark at this
    exact this

theorem engineInv_congr (s t : TypingEngineState)
    (htext : t.text = s.text) (hmarks : t.marks = s.marks)
    (hcounted : t.countedCorrect = s.countedCorrect)
    (htE : t.typedEnd = s.typedEnd) (hcur : t.cursor = s.cursor)
    (hranges : t.skipRanges = s.skipRanges)
    (hcc : t.correctChars = s.correctChars) (htp : t.typedPositions = s.typedPositions)
    (h : EngineInv s) : EngineInv t := by
  refine ⟨engineInvCore_congr s t htext hmarks hcounted htE hcur hranges hcc htp h.toEngineInvCore, ?_⟩
  rw [hranges, hcur]
  exact h.cursor_out

theorem inv_skipForwardIfNeeded (s : TypingEngineState) (h : EngineInvCore s) :
    EngineInv (skipForwardIfNeeded s) := by
  rw [skipForwardIfNeeded_eq]
  have hge := skipForwardCursor_ge s.skipRanges s.text.length s.cursor
  have hle := skipForwardCursor_le_len s.skipRanges s.text.length s.cursor h.ranges_wf h.cursor_le_len
  have hout := skipForwardCursor_out s.skipRanges s.text.length s.cursor h.ranges_wf
  refine ⟨⟨h.marks_len, h.counted_len, ?_, hle, h.ranges_wf, h.correct_eq,
    h.counted_imp_correct, h.tp_sorted, h.tp_lt_typedEnd, h.tp_out, h.tp_set⟩, hout⟩
  dsimp only
  have := h.typedEnd_le_cursor
  omega

theorem inv_typedEnd_cursor (s : TypingEngineState) (h : EngineInvCore s) :
    EngineInvCore { s with typedEnd := s.cursor } := by
  refine ⟨h.marks_len, h.counted_len, le_refl _, h.cursor_le_len, h.ranges_wf, h.correct_eq,
    h.counted_imp_correct, h.tp_sorted, ?_, h.tp_out, h.tp_set⟩
  intro p hp
  exact lt_of_lt_of_le (h.tp_lt_typedEnd p hp) h.typedEnd_le_cursor

theorem inv_push (s : TypingEngineState) (m : Mark) (b : Bool)
    (hinv : EngineInv s) (hcur : s.cursor < s.text.length)
    (hm : (((m == Mark.CORRECT) && b) || (m == Mark.INCORRECT) || (m == Mark.COLLATERAL)) = true) :
    EngineInvCore { setMark s s.cursor m b with
      typedPositions := s.typedPositions ++ [s.cursor]
      cursor := s.cursor + 1
      typedEnd := s.cursor + 1 } := by
  have hcurm : s.cursor < s.marks.length := by
    rw [hinv.marks_len]; exact hcur
  have hclen : s.countedCorrect.length = s.marks.length := by
    rw [hinv.marks_len, hinv.counted_len]
  have htp_lt : ∀ p ∈ s.typedPositions, p < s.cursor := by
    intro p hp
    exact lt_of_lt_of_le (hinv.tp_lt_typedEnd p hp) hinv.typedEnd_le_cursor
  constructor
  · dsimp only
    simp [hinv.marks_len]
  · dsimp only
    simp [hinv.counted_len]
  · dsimp only
    exact le_refl _
  · dsimp only
    simp only [setMark_text]
    omega
  · dsimp only
    simp only [setMark_text, setMark_skipRanges]
    exact hinv.ranges_wf
  · dsimp only
    exact setMark_preserves_correct_eq s s.cursor m b hinv.correct_eq hinv.counted_imp_correct hclen
  · dsimp only
    exact setMark_preserves_counted_imp s s.cursor m b hinv.counted_imp_correct hclen
  · dsimp only
    rw [List.pairwise_append]
    refine ⟨hinv.tp_sorted, by simp, ?_⟩
    intro a ha b' hb'
    rcases List.mem_singleton.mp hb' with rfl
    exact htp_lt a ha
  · dsimp only
    intro p hp
    rcases List.mem_append.mp hp with h1 | h1
    · have := htp_lt p h1
      omega
    · rcases List.mem_singleton.mp h1 with rfl
      omega
  · dsimp only
    intro p hp
    simp only [setMark_skipRanges]
    rcases List.mem_append.mp hp with h1 | h1
    · exact hinv.tp_out p h1
    · rcases List.mem_singleton.mp h1 with rfl
      exact hinv.cursor_out
  · dsimp only
    intro i
    unfold isUserTypedMark
    dsimp only
    rw [setMark_marks_getD s s.cursor m b hcurm i,
      setMark_counted_getD s s.cursor m b hcurm hclen i]
    by_cases hic : i = s.cursor
    · rw [if_pos hic, if_pos hic]
      constructor
      · intro _
        exact hm
      · intro _
        rw [hic]
        simp
    · rw [if_neg hic, if_neg hic]
      have hmem : i ∈ s.typedPositions ++ [s.cursor] ↔ i ∈ s.typedPositions := by
        simp [List.mem_append, hic]
      rw [hmem]
      have := hinv.tp_set i
      unfold isUserTypedMark at this
      exact this

theorem inv_handleKey (s : TypingEngineState) (ch : List Char) (hinv : EngineInv s) :
    EngineInv (handleKey s ch) := by
  unfold handleKey
  split
  · exact hinv
  · have hinv1 : EngineInv { s with typedKeystrokes := s.typedKeystrokes + 1 } :=
      engineInv_congr s _ rfl rfl rfl rfl rfl rfl rfl rfl hinv
    dsimp only
    split
    · exact hinv1
    · have hinv2 := inv_skipForwardIfNeeded _ hinv1.toEngineInvCore
      generalize hs2 : skipForwardIfNeeded { s with typedKeystrokes := s.typedKeystrokes + 1 } = s2
      rw [hs2] at hinv2
      split
      · exact hinv2
      · rename_i hlen2
        push_neg at hlen2
        split
        · -- no active error
          split
          · -- whitespace-advance transform applied
            split
            · -- matched
              split
              · -- enter with auto-skip
                apply inv_skipForwardIfNeeded
                apply inv_typedEnd_cursor
                apply asn_core
                refine engineInvCore_congr _ _ ?_ ?_ ?_ ?_ ?_ ?_ ?_ ?_
                  (inv_push s2 Mark.CORRECT true hinv2 hlen2 (by decide)) <;> simp
              · -- plain correct keystroke
                apply inv_skipForwardIfNeeded
                refine engineInvCore_congr _ _ ?_ ?_ ?_ ?_ ?_ ?_ ?_ ?_
                  (inv_push s2 Mark.CORRECT true hinv2 hlen2 (by decide)) <;> simp
            · -- mismatch
              apply inv_skipForwardIfNeeded
              refine engineInvCore_congr _ _ ?_ ?_ ?_ ?_ ?_ ?_ ?_ ?_
                (inv_push s2 Mark.INCORRECT false hinv2 hlen2 (by decide)) <;> simp
          · -- no whitespace transform
            split
            · -- matched
              split
              · apply inv_skipForwardIfNeeded
                apply inv_typedEnd_cursor
                apply asn_core
                refine engineInvCore_congr _ _ ?_ ?_ ?_ ?_ ?_ ?_ ?_ ?_
                  (inv_push s2 Mark.CORRECT true hinv2 hlen2 (by decide)) <;> simp
              · apply inv_skipForwardIfNeeded
                refine engineInvCore_congr _ _ ?_ ?_ ?_ ?_ ?_ ?_ ?_ ?_
                  (inv_push s2 Mark.CORRECT true hinv2 hlen2 (by decide)) <;> simp
            · apply inv_skipForwardIfNeeded
              refine engineInvCore_congr _ _ ?_ ?_ ?_ ?_ ?_ ?_ ?_ ?_
                (inv_push s2 Mark.INCORRECT false hinv2 hlen2 (by decide)) <;> simp
        · -- error active
          split
          · split
            · -- within slack: collateral
              apply inv_skipForwardIfNeeded
              refine engineInvCore_congr _ _ ?_ ?_ ?_ ?_ ?_ ?_ ?_ ?_
                (inv_push s2 Mark.COLLATERAL false hinv2 hlen2 (by decide)) <;> simp
            · -- slack exceeded: lock
              exact engineInv_congr s2 _ rfl rfl rfl rfl rfl rfl rfl rfl hinv2
          · split
            · -- within slack: collateral
              apply inv_skipForwardIfNeeded
              refine engineInvCore_congr _ _ ?_ ?_ ?_ ?_ ?_ ?_ ?_ ?_
                (inv_push s2 Mark.COLLATERAL false hinv2 hlen2 (by decide)) <;> simp
            · -- slack exceeded: lock
              exact engineInv_congr s2 _ rfl rfl rfl rfl rfl rfl rfl rfl hinv2

theorem inv_pop (s : TypingEngineState) (last : Nat) (hinv : EngineInv s)
    (hlast : s.typedPositions.getLast? = some last) :
    EngineInv (setMark { s with
      typedPositions := s.typedPositions.dropLast
      cursor := last
      typedEnd := last } last Mark.UNTOUCHED false) := by
  have hne : s.typedPositions ≠ [] := by
    intro h
    rw [h] at hlast
    cases hlast
  have hsplit : s.typedPositions.dropLast ++ [s.typedPositions.getLast hne] = s.typedPositions :=
    List.dropLast_append_getLast hne
  have hlast_eq : s.typedPositions.getLast hne = last := by
    have h2 := List.getLast?_eq_getLast s.typedPositions hne
    rw [h2] at hlast
    exact Option.some.inj hlast
  rw [hlast_eq] at hsplit
  have hmem : last ∈ s.typedPositions := by
    rw [← hsplit]
    simp
  have hlt_cursor : last < s.cursor :=
    lt_of_lt_of_le (hinv.tp_lt_typedEnd last hmem) hinv.typedEnd_le_cursor
  have hlast_len : last < s.text.length := lt_of_lt_of_le hlt_cursor hinv.cursor_le_len
  have hlast_m : last < s.marks.length := by
    rw [hinv.marks_len]; exact hlast_len
  have hclen : s.countedCorrect.length = s.marks.length := by
    rw [hinv.marks_len, hinv.counted_len]
  have hdrop_lt : ∀ p ∈ s.typedPositions.dropLast, p < last := by
    intro p hp
    have hpw : (s.typedPositions.dropLast ++ [last]).Pairwise (fun a b => a < b) := by
      rw [hsplit]; exact hinv.tp_sorted
    rcases List.pairwise_append.mp hpw with ⟨_, _, hcross⟩
    exact hcross p hp last (List.mem_singleton_self _)
  have hnotin : last ∉ s.typedPositions.dropLast := by
    intro h
    exact absurd rfl (Nat.ne_of_lt (hdrop_lt last h))
  have hdropsub : ∀ p ∈ s.typedPositions.dropLast, p ∈ s.typedPositions := by
    intro p hp
    rw [← hsplit]
    exact List.mem_append_left _ hp
  refine ⟨⟨?_, ?_, ?_, ?_, ?_, ?_, ?_, ?_, ?_, ?_, ?_⟩, ?_⟩
  · simp only [setMark_marks_length, setMark_text]
    exact hinv.marks_len
  · simp only [setMark_counted_length, setMark_text]
    exact hinv.counted_len
  · simp only [setMark_typedEnd, setMark_cursor]
    exact le_refl last
  · simp only [setMark_cursor, setMark_text]
    exact le_of_lt hlast_len
  · simp only [setMark_skipRanges, setMark_text]
    exact hinv.ranges_wf
  · exact setMark_preserves_correct_eq _ last Mark.UNTOUCHED false
      hinv.correct_eq hinv.counted_imp_correct hclen
  · exact setMark_preserves_counted_imp _ last Mark.UNTOUCHED false
      hinv.counted_imp_correct hclen
  · simp only [setMark_typedPositions]
    exact hinv.tp_sorted.sublist (List.dropLast_sublist _)
  · simp only [setMark_typedPositions, setMark_typedEnd]
    exact hdrop_lt
  · simp only [setMark_typedPositions, setMark_skipRanges]
    intro p hp
    exact hinv.tp_out p (hdropsub p hp)
  · intro i
    simp only [setMark_typedPositions]
    unfold isUserTypedMark
    rw [setMark_marks_getD { s with
        typedPositions := s.typedPositions.dropLast
        cursor := last
        typedEnd := last } last Mark.UNTOUCHED false hlast_m i,
      setMark_counted_getD { s with
        typedPositions := s.typedPositions.dropLast
        cursor := last
        typedEnd := last } last Mark.UNTOUCHED false hlast_m hclen i]
    by_cases hic : i = last
    · rw [if_pos hic, if_pos hic]
      constructor
      · intro h
        rw [hic] at h
        exact absurd h hnotin
      · intro hbad
        simp at hbad
    · rw [if_neg hic, if_neg hic]
      have hmem2 : i ∈ s.typedPositions.dropLast ↔ i ∈ s.typedPositions := by
        rw [← hsplit]
        simp [hic]
      rw [hmem2]
      have h3 := hinv.tp_set i
      unfold isUserTypedMark at h3
      exact h3
  · simp only [setMark_skipRanges, setMark_cursor]
    exact hinv.tp_out last hmem

theorem inv_resetError (s : TypingEngineState) (h : EngineInv s) :
    EngineInv { s with errorActive := false, firstErrorIndex := -1, firstErrorTypedProgress := -1 } :=
  engineInv_congr s _ rfl rfl rfl rfl rfl rfl rfl rfl h

theorem inv_handleBackspace (s : TypingEngineState) (hinv : EngineInv s) :
    EngineInv (handleBackspace s) := by
  unfold handleBackspace
  dsimp only
  have hinv1 : EngineInv { s with
      typedKeystrokes := s.typedKeystrokes + 1
      backspaces := s.backspaces + 1
      locked := false } :=
    engineInv_congr s _ rfl rfl rfl rfl rfl rfl rfl rfl hinv
  rcases hlast : s.typedPositions.getLast? with _ | last
  · simp only [hlast]
    split
    · exact inv_resetError _ hinv1
    · exact hinv1
  · simp only [hlast]
    have hpop := inv_pop { s with
        typedKeystrokes := s.typedKeystrokes + 1
        backspaces := s.backspaces + 1
        locked := false } last hinv1 hlast
    split
    · exact inv_resetError _ hpop
    · exact hpop

theorem inv_create (text : List Char) (slackN : Int) (auto : Bool)
    (raw : List RawRange) (allowWs : Bool) :
    EngineInv (createTypingEngine text slackN auto raw allowWs) := by
  unfold createTypingEngine
  dsimp only
  apply inv_skipForwardIfNeeded
  refine ⟨?_, ?_, ?_, ?_, ?_, ?_, ?_, ?_, ?_, ?_, ?_⟩
  · simp
  · simp
  · exact le_refl 0
  · exact Nat.zero_le _
  · exact normalizeRanges_wf raw text.length
  · rw [List.count_replicate]
    simp
  · intro i h
    exfalso
    rcases Nat.lt_or_ge i (List.replicate text.length false).length with hi | hi
    · rw [getD_eq_getElem_of_lt _ false i hi] at h
      simp at h
    · rw [getD_eq_default_of_le _ false i hi] at h
      cases h
  · exact List.Pairwise.nil
  · intro p hp
    cases hp
  · intro p hp
    cases hp
  · intro i
    unfold isUserTypedMark
    constructor
    · intro h
      cases h
    · intro h
      exfalso
      dsimp only at h
      rcases Nat.lt_or_ge i text.length with hi | hi
      · rw [getD_eq_getElem_of_lt _ false i (by simpa using hi),
          getD_eq_getElem_of_lt _ Mark.UNTOUCHED i (by simpa using hi)] at h
        simp at h
      · rw [getD_eq_default_of_le _ false i (by simpa using hi),
          getD_eq_default_of_le _ Mark.UNTOUCHED i (by simpa using hi)] at h
        simp at h

theorem skipForwardIfNeeded_typeable (s : TypingEngineState) :
    (skipForwardIfNeeded s).typeableChars = s.typeableChars := by
  unfold skipForwardIfNeeded
  split <;> rfl

theorem asn_aux_typeable (fuel : Nat) : ∀ s : TypingEngineState,
    (autoSkipNewlinesAux fuel s).typeableChars = s.typeableChars := by
  induction fuel with
  | zero => intro s; rfl
  | succ n ih =>
    intro s
    simp only [autoSkipNewlinesAux]
    split
    · rw [ih]
      simp
    · rfl

theorem handleKey_typeable (s : TypingEngineState) (ch : List Char) :
    (handleKey s ch).typeableChars = s.typeableChars := by
  unfold handleKey
  split
  · rfl
  · dsimp only
    split
    · rfl
    · have h2 : (skipForwardIfNeeded { s with typedKeystrokes := s.typedKeystrokes + 1 }).typeableChars
          = s.typeableChars := skipForwardIfNeeded_typeable _
      generalize hs2 : skipForwardIfNeeded { s with typedKeystrokes := s.typedKeystrokes + 1 } = s2
      rw [hs2] at h2
      repeat' split
      all_goals simp [skipForwardIfNeeded_typeable, autoSkipNewlines, asn_aux_typeable, h2]

theorem handleBackspace_typeable (s : TypingEngineState) :
    (handleBackspace s).typeableChars = s.typeableChars := by
  unfold handleBackspace
  dsimp only
  rcases hlast : s.typedPositions.getLast? with _ | last <;> simp only [hlast] <;> repeat' split
  all_goals simp

theorem runSteps_typeable (steps : List EngineStep) : ∀ s : TypingEngineState,
    (runSteps s steps).typeableChars = s.typeableChars := by
  induction steps with
  | nil => intro s; rfl
  | cons step rest ih =>
    intro s
    rw [runSteps, ih]
    cases step
    · exact handleKey_typeable s _
    · exact handleBackspace_typeable s

theorem inv_runSteps (steps : List EngineStep) : ∀ s : TypingEngineState,
    EngineInv s → EngineInv (runSteps s steps) := by
  induction steps with
  | nil => intro s h; exact h
  | cons step rest ih =>
    intro s h
    rw [runSteps]
    apply ih
    cases step
    · exact inv_handleKey s _ h
    · exact inv_handleBackspace s h

theorem tp_length_eq (s : TypingEngineState) (h : EngineInvCore s) :
    s.typedPositions.length = userTypedCount s := by
  unfold userTypedCount
  have hnd1 : s.typedPositions.Nodup :=
    List.Pairwise.imp (fun hab => Nat.ne_of_lt hab) h.tp_sorted
  have hnd2 : ((List.range s.text.length).filter (isUserTypedMark s)).Nodup :=
    List.Nodup.filter _ (List.nodup_range s.text.length)
  have hmem : ∀ a : Nat, a ∈ s.typedPositions
      ↔ a ∈ (List.range s.text.length).filter (isUserTypedMark s) := by
    intro a
    rw [List.mem_filter, List.mem_range]
    constructor
    · intro ha
      refine ⟨?_, (h.tp_set a).mp ha⟩
      have h1 := h.tp_lt_typedEnd a ha
      have h2 := h.typedEnd_le_cursor
      have h3 := h.cursor_le_len
      omega
    · intro ha
      exact (h.tp_set a).mpr ha.2
  have hperm : s.typedPositions.Perm ((List.range s.text.length).filter (isUserTypedMark s)) :=
    (List.perm_ext_iff_of_nodup hnd1 hnd2).mpr hmem
  exact hperm.length_eq

/-- C1: in every state reachable from `createTypingEngine` by a finite
sequence of `handleKey`/`handleBackspace` calls, `typedEnd ≤ cursor ≤
text.length` (all nonnegative), the cursor lies in no stored skip range,
`correctChars` equals the number of counted-correct positions,
`typedPositions` has exactly one entry per outstanding user-typed mark,
and `typeableChars`, `typedKeystrokes`, `incorrect`, `collateral`,
`backspaces`, `correctChars` are all nonnegative. -/
theorem claim_C1 (text : List Char) (slackN : Int) (auto allowWs : Bool)
    (raw : List RawRange) (steps : List EngineStep) :
    let s := runSteps (createTypingEngine text slackN auto raw allowWs) steps
    ((0 : Int) ≤ (s.typedEnd : Int) ∧ s.typedEnd ≤ s.cursor ∧ s.cursor ≤ s.text.length)
    ∧ (∀ r ∈ s.skipRanges, ¬(r.start ≤ s.cursor ∧ s.cursor < r.«end»))
    ∧ s.correctChars = (s.countedCorrect.count true : Int)
    ∧ s.typedPositions.length = userTypedCount s
    ∧ (0 ≤ s.typeableChars ∧ (0 : Int) ≤ (s.typedKeystrokes : Int)
        ∧ (0 : Int) ≤ (s.incorrect : Int) ∧ (0 : Int) ≤ (s.collateral : Int)
        ∧ (0 : Int) ≤ (s.backspaces : Int) ∧ 0 ≤ s.correctChars) := by
  intro s
  have hinv : EngineInv s :=
    inv_runSteps steps _ (inv_create text slackN auto raw allowWs)
  have htc : s.typeableChars
      = max 0 ((text.length : Int) - (sumRangeLengths (normalizeRanges raw text.length) : Int)) := by
    show (runSteps (createTypingEngine text slackN auto raw allowWs) steps).typeableChars = _
    rw [runSteps_typeable, createTypingEngine_eq]
  refine ⟨⟨Int.ofNat_nonneg _, hinv.typedEnd_le_cursor, hinv.cursor_le_len⟩, ?_,
    hinv.correct_eq, tp_length_eq s hinv.toEngineInvCore,
    ?_, Int.ofNat_nonneg _, Int.ofNat_nonneg _, Int.ofNat_nonneg _, Int.ofNat_nonneg _, ?_⟩
  · intro r hr
    have := hinv.cursor_out r hr
    omega
  · rw [htc]
    exact le_max_left _ _
  · rw [hinv.correct_eq]
    exact Int.ofNat_nonneg _

theorem asn_aux_cursor (fuel : Nat) : ∀ s : TypingEngineState,
    s.text.length - s.cursor ≤ fuel →
    (autoSkipNewlinesAux fuel s).cursor = s.cursor + newlineRunLen s.text s.cursor := by
  induction fuel with
  | zero =>
    intro s hfuel
    have hdrop : s.text.drop s.cursor = [] := List.drop_eq_nil_of_le (by omega)
    unfold autoSkipNewlinesAux newlineRunLen
    rw [hdrop]
    simp
  | succ n ih =>
    intro s hfuel
    simp only [autoSkipNewlinesAux]
    split
    · rename_i hcond
      have hlt : s.cursor < s.text.length := hcond.1
      have hch : s.text[s.cursor] = '\n' := by
        have h2 := hcond.2
        rw [getD_eq_getElem_of_lt s.text '\u0000' s.cursor hlt] at h2
        exact h2
      have hdrop : s.text.drop s.cursor = '\n' :: s.text.drop (s.cursor + 1) := by
        rw [List.drop_eq_getElem_cons hlt, hch]
      have hrun : newlineRunLen s.text s.cursor = newlineRunLen s.text (s.cursor + 1) + 1 := by
        unfold newlineRunLen
        rw [hdrop, List.takeWhile_cons]
        simp
      have hrec := ih { setMark s s.cursor Mark.CORRECT false with
          cursor := (setMark s s.cursor Mark.CORRECT false).cursor + 1 } (by
        simp only [setMark_text, setMark_cursor]
        omega)
      simp only [setMark_text, setMark_cursor] at hrec ⊢
      rw [hrec, hrun]
      omega
    · rename_i hcond
      have hrun : newlineRunLen s.text s.cursor = 0 := by
        unfold newlineRunLen
        rcases Nat.lt_or_ge s.cursor s.text.length with hlt | hge
        · have hne : ¬ s.text.getD s.cursor '\u0000' = '\n' := fun h => hcond ⟨hlt, h⟩
          rw [getD_eq_getElem_of_lt s.text '\u0000' s.cursor hlt] at hne
          rw [List.drop_eq_getElem_cons hlt, List.takeWhile_cons]
          simp [hne]
        · rw [List.drop_eq_nil_of_le hge]
          simp
      omega

theorem autoSkipNewlines_cursor (s : TypingEngineState) :
    (autoSkipNewlines s).cursor = s.cursor + newlineRunLen s.text s.cursor := by
  unfold autoSkipNewlines
  exact asn_aux_cursor _ s (le_refl _)

theorem autoSkipNewlines_text (s : TypingEngineState) :
    (autoSkipNewlines s).text = s.text :=
  (asn_aux_pres _ s).1

theorem autoSkipNewlines_skipRanges (s : TypingEngineState) :
    (autoSkipNewlines s).skipRanges = s.skipRanges :=
  (asn_aux_pres _ s).2.1

/-- C2 (amended): when autoSkipBlankLines is enabled and the expected
character at the cursor is a newline, a single matching Enter sets
typedEnd to the position just past the typed newline plus the whole
auto-consumed run of immediately following newlines, and the final
cursor additionally jumps over any skip range starting there. -/
theorem claim_C2_amended (s : TypingEngineState) (hinv : EngineInv s)
    (hlock : s.locked = false) (herr : s.errorActive = false)
    (hcur : s.cursor < s.text.length)
    (hch : s.text.getD s.cursor '\u0000' = '\n')
    (hauto : s.autoSkipBlankLines = true) :
    (handleKey s ['\n']).typedEnd = s.cursor + 1 + newlineRunLen s.text (s.cursor + 1)
    ∧ (handleKey s ['\n']).cursor
      = skipForwardCursor s.skipRanges s.text.length
          (s.cursor + 1 + newlineRunLen s.text (s.cursor + 1)) := by
  unfold handleKey
  rw [if_neg (by decide : ¬(['\n'] : List Char) = [])]
  dsimp only [List.headD]
  rw [if_neg (by simp [hlock])]
  have hnoop : skipForwardCursor s.skipRanges s.text.length s.cursor = s.cursor :=
    skipForwardCursor_noop _ _ _ hinv.cursor_out
  rw [skipForwardIfNeeded_eq]
  dsimp only
  rw [hnoop]
  rw [if_neg (by omega : ¬ s.text.length ≤ s.cursor)]
  rw [if_pos (by simp [herr])]
  rw [ite_self]
  rw [hch]
  rw [if_pos rfl]
  rw [if_pos (by simp [hauto])]
  rw [skipForwardIfNeeded_eq]
  dsimp only
  constructor
  · rw [autoSkipNewlines_cursor]
    simp only [setMark_cursor, setMark_text]
  · rw [autoSkipNewlines_cursor, autoSkipNewlines_text, autoSkipNewlines_skipRanges]
    simp only [setMark_cursor, setMark_text, setMark_skipRanges]

theorem claim_C2_amended_witness :
    (handleKey (createTypingEngine ("\n\nP".toList) 3 true [] false) ['\n']).typedEnd
        = (createTypingEngine ("\n\nP".toList) 3 true [] false).cursor + 1
          + newlineRunLen (createTypingEngine ("\n\nP".toList) 3 true [] false).text
              ((createTypingEngine ("\n\nP".toList) 3 true [] false).cursor + 1)
    ∧ (handleKey (createTypingEngine ("\n\nP".toList) 3 true [] false) ['\n']).cursor
        = skipForwardCursor (createTypingEngine ("\n\nP".toList) 3 true [] false).skipRanges
            (createTypingEngine ("\n\nP".toList) 3 true [] false).text.length
            ((createTypingEngine ("\n\nP".toList) 3 true [] false).cursor + 1
              + newlineRunLen (createTypingEngine ("\n\nP".toList) 3 true [] false).text
                  ((createTypingEngine ("\n\nP".toList) 3 true [] false).cursor + 1)) :=
  claim_C2_amended (createTypingEngine ("\n\nP".toList) 3 true [] false)
    (inv_create ("\n\nP".toList) 3 true [] false)
    (by decide) (by decide) (by decide) (by decide) (by decide)

theorem set_getD_self {α : Type} (l : List α) (d a : α) (i : Nat)
    (hi : i < l.length) (h : l.getD i d = a) : l.set i a = l := by
  apply List.ext_getElem?
  intro j
  rw [List.getElem?_set]
  by_cases hij : i = j
  · subst hij
    rw [if_pos rfl, if_pos hi]
    rw [getD_eq_getElem_of_lt l d i hi] at h
    rw [← h]
    exact (List.getElem?_eq_getElem hi).symm
  · rw [if_neg hij]

theorem pair_restore (s : TypingEngineState) (hinv : EngineInv s)
    (hlock : s.locked = false) (herr : s.errorActive = false)
    (hcur : s.cursor < s.text.length)
    (hte : s.typedEnd = s.cursor)
    (hmark : s.marks.getD s.cursor Mark.UNTOUCHED = Mark.UNTOUCHED)
    (hnoEnter : ¬(s.text.getD s.cursor '\u0000' = '\n' ∧ s.autoSkipBlankLines = true)) :
    handleBackspace (handleKey s [s.text.getD s.cursor '\u0000'])
      = { s with typedKeystrokes := s.typedKeystrokes + 2, backspaces := s.backspaces + 1 } := by
  have hml : s.cursor < s.marks.length := by
    rw [hinv.marks_len]
    exact hcur
  have hcl : s.cursor < s.countedCorrect.length := by
    rw [hinv.counted_len]
    exact hcur
  have hcounted : s.countedCorrect.getD s.cursor false = false := by
    cases hc : s.countedCorrect.getD s.cursor false
    · rfl
    · exact absurd (hinv.counted_imp_correct s.cursor hc) (by rw [hmark]; decide)
  have hsM : setMark { s with typedKeystrokes := s.typedKeystrokes + 1, cursor := s.cursor }
        s.cursor Mark.CORRECT true
      = { s with
          typedKeystrokes := s.typedKeystrokes + 1
          cursor := s.cursor
          marks := s.marks.set s.cursor Mark.CORRECT
          countedCorrect := s.countedCorrect.set s.cursor true
          correctChars := s.correctChars + 1 } := by
    unfold setMark
    dsimp only
    rw [if_neg (not_le.mpr hml)]
    rw [hmark, hcounted]
    simp
  have hkey : handleKey s [s.text.getD s.cursor '\u0000']
      = { s with
          typedKeystrokes := s.typedKeystrokes + 1
          marks := s.marks.set s.cursor Mark.CORRECT
          countedCorrect := s.countedCorrect.set s.cursor true
          correctChars := s.correctChars + 1
          typedPositions := s.typedPositions ++ [s.cursor]
          cursor := skipForwardCursor s.skipRanges s.text.length (s.cursor + 1)
          typedEnd := s.cursor + 1 } := by
    unfold handleKey
    rw [if_neg (by simp : ¬([s.text.getD s.cursor '\u0000'] : List Char) = [])]
    dsimp only [List.headD]
    rw [if_neg (by simp [hlock])]
    have hnoop : skipForwardCursor s.skipRanges s.text.length s.cursor = s.cursor :=
      skipForwardCursor_noop _ _ _ hinv.cursor_out
    rw [skipForwardIfNeeded_eq]
    dsimp only
    rw [hnoop]
    rw [if_neg (by omega : ¬ s.text.length ≤ s.cursor)]
    rw [if_pos (by simp [herr])]
    rw [if_neg (show ¬(s.allowWhitespaceAdvanceToNewline = true
        ∧ s.text.getD s.cursor '\u0000' = ' ' ∧ s.text.getD s.cursor '\u0000' = '\n') by
      rintro ⟨-, h1, h2⟩
      rw [h1] at h2
      exact absurd h2 (by decide))]
    rw [if_pos rfl]
    rw [if_neg (show ¬((((s.text.getD s.cursor '\u0000' == '\n')
        && (s.text.getD s.cursor '\u0000' == '\n')) && s.autoSkipBlankLines) = true) by
      intro h
      rw [Bool.and_eq_true, Bool.and_eq_true, beq_iff_eq] at h
      exact hnoEnter ⟨h.1.1, h.2⟩)]
    rw [hsM]
    rw [skipForwardIfNeeded_eq]
  rw [hkey]
  unfold handleBackspace
  dsimp only
  rw [List.getLast?_concat]
  dsimp only
  rw [List.dropLast_concat]
  have hsM2 : setMark { s with
        typedKeystrokes := s.typedKeystrokes + 1 + 1
        marks := s.marks.set s.cursor Mark.CORRECT
        countedCorrect := s.countedCorrect.set s.cursor true
        correctChars := s.correctChars + 1
        typedPositions := s.typedPositions
        cursor := s.cursor
        typedEnd := s.cursor
        backspaces := s.backspaces + 1
        locked := false } s.cursor Mark.UNTOUCHED false
      = { s with
          typedKeystrokes := s.typedKeystrokes + 1 + 1
          typedPositions := s.typedPositions
          cursor := s.cursor
          typedEnd := s.cursor
          backspaces := s.backspaces + 1
          locked := false } := by
    unfold setMark
    dsimp only
    rw [List.length_set]
    rw [if_neg (not_le.mpr hml)]
    rw [getD_set_eq s.marks s.cursor s.cursor Mark.CORRECT Mark.UNTOUCHED hml,
      getD_set_eq s.countedCorrect s.cursor s.cursor true false hcl]
    rw [if_pos rfl, if_pos rfl]
    rw [List.set_set, List.set_set]
    rw [show ((Mark.UNTOUCHED == Mark.CORRECT) && false) = false from rfl]
    rw [set_getD_self s.marks Mark.UNTOUCHED Mark.UNTOUCHED s.cursor hml hmark,
      set_getD_self s.countedCorrect false false s.cursor hcl hcounted]
    simp
  rw [hsM2]
  rw [if_neg (by intro h; rw [herr] at h; exact absurd h.1 (by decide))]
  rw [hte]
  rw [hlock]

/-- C3 (amended): from any invariant-satisfying state with no active
error, not locked, cursor < length, typedEnd = cursor, an untouched mark
at the cursor, and whose expected character does not trigger the
blank-line auto-skip, k rounds of (press the expected character, then
backspace) restore the state exactly, except that typedKeystrokes grows
by 2k (the backspace is itself a counted keystroke) and backspaces grows
by k. -/
theorem claim_C3_amended (s : TypingEngineState) (hinv : EngineInv s)
    (hlock : s.locked = false) (herr : s.errorActive = false)
    (hcur : s.cursor < s.text.length)
    (hte : s.typedEnd = s.cursor)
    (hmark : s.marks.getD s.cursor Mark.UNTOUCHED = Mark.UNTOUCHED)
    (hnoEnter : ¬(s.text.getD s.cursor '\u0000' = '\n' ∧ s.autoSkipBlankLines = true))
    (k : Nat) :
    keyBackspacePairs s k
      = { s with
          typedKeystrokes := s.typedKeystrokes + 2 * k
          backspaces := s.backspaces + k } := by
  induction k generalizing s hinv hlock herr hcur hte hmark hnoEnter with
  | zero =>
    simp only [keyBackspacePairs]
    rw [Nat.mul_zero, Nat.add_zero, Nat.add_zero]
  | succ k ih =>
    simp only [keyBackspacePairs]
    rw [pair_restore s hinv hlock herr hcur hte hmark hnoEnter]
    rw [ih { s with typedKeystrokes := s.typedKeystrokes + 2, backspaces := s.backspaces + 1 }
      (engineInv_congr s _ rfl rfl rfl rfl rfl rfl rfl rfl hinv) hlock herr hcur hte hmark hnoEnter]
    dsimp only
    rw [show s.typedKeystrokes + 2 + 2 * k = s.typedKeystrokes + 2 * (k + 1) from by ring,
      show s.backspaces + 1 + k = s.backspaces + (k + 1) from by ring]

theorem claim_C3_amended_witness :
    keyBackspacePairs (createTypingEngine ("ab".toList) 0 true [] false) 1
      = { createTypingEngine ("ab".toList) 0 true [] false with
          typedKeystrokes := (createTypingEngine ("ab".toList) 0 true [] false).typedKeystrokes + 2 * 1
          backspaces := (createTypingEngine ("ab".toList) 0 true [] false).backspaces + 1 } :=
  claim_C3_amended (createTypingEngine ("ab".toList) 0 true [] false)
    (inv_create ("ab".toList) 0 true [] false)
    (by decide) (by decide) (by decide) (by decide) (by decide) (by decide) 1
